import Mathlib

/-!
Shallow embedding of the persistent-store core of the Expense-Tracker
application: the transaction/category data model
(`expense_tracker/models/transaction.py`, `models/category.py`), the JSON
repository (`repositories/json_repository.py`), the category service
(`services/category_service.py`), the schema-migration engine and
persistence orchestrator (`utils/data_manager.py`) and the backup manager
(`utils/error_handling.py`).

Machine-level conventions: Python `Decimal` values are modelled by their
sign/coefficient/exponent triple (`Dec`); naive `datetime` values by their
seven integer components (`DT`); JSON dictionaries produced by `to_dict`
by flat structures of strings (`TxnD`, `CatD`).  Wall-clock reads
(`datetime.now()`) and generated UUIDs are threaded as explicit
parameters.
-/

namespace ExpenseTracker

/-! ## Digit strings

`digitsBEAux` renders a natural number in base `b` as its big-endian
digit characters, with explicit fuel so the kernel can evaluate it; the
fuel `n` itself always suffices.  `natValue` is the left fold a decimal
parser uses to read the digits back. -/

def digitsBEAux (b : Nat) : Nat → Nat → List Char
  | 0, _ => []
  | _ + 1, 0 => []
  | fuel + 1, n + 1 => digitsBEAux b fuel ((n + 1) / b) ++ [Nat.digitChar ((n + 1) % b)]

def digitsBE (b n : Nat) : List Char := digitsBEAux b n n

/-- Decimal digit characters of `n`, rendering `0` as `"0"`. -/
def digitsOf (n : Nat) : List Char := if n = 0 then ['0'] else digitsBE 10 n

/-- Zero-padded fixed-width decimal rendering, as Python `f"{n:0wd}"`:
pads with leading zeros up to width `w`, never truncates. -/
def padNum (w n : Nat) : List Char :=
  List.replicate (w - (digitsOf n).length) '0' ++ digitsOf n

/-- Zero-padded fixed-width lowercase hexadecimal rendering, as Python
`"%0wx" % n` used in `uuid.UUID.__str__`. -/
def padHex (w n : Nat) : List Char :=
  let ds := if n = 0 then ['0'] else digitsBE 16 n
  List.replicate (w - ds.length) '0' ++ ds

def charDigit (c : Char) : Nat := c.toNat - '0'.toNat

/-- Python `str.strip()` with no argument: remove leading and trailing
whitespace characters, returning the remaining characters.  (Python
strips the full Unicode whitespace class; the ASCII whitespace handled
by `Char.isWhitespace` is what this development's strings contain.) -/
def pyStrip (s : String) : List Char :=
  ((s.data.dropWhile Char.isWhitespace).reverse.dropWhile Char.isWhitespace).reverse

def natValue (ds : List Char) : Nat := ds.foldl (fun acc c => acc * 10 + charDigit c) 0

/-! ## Decimal numbers (`decimal.Decimal`)

A `Dec` is the `(sign, coefficient, exponent)` triple underlying a Python
`Decimal`; its numeric value is `±coeff · 10^exp`.  `decChars` is the
General Decimal Arithmetic *to-scientific-string* conversion implemented
by `Decimal.__str__`; `decParse` is the numeric part of the `Decimal`
string constructor used by `Transaction.from_dict` (the special values
NaN/Infinity and the underscore/whitespace normalisation, never produced
by `__str__`, are out of scope and parse to `none`, modelling a raised
`InvalidOperation` for the strings this development feeds it). -/

structure Dec where
  sign : Bool
  coeff : Nat
  exp : Int
deriving DecidableEq

def Dec.toRat (d : Dec) : ℚ :=
  (if d.sign then -(d.coeff : ℚ) else (d.coeff : ℚ)) *
    (if 0 ≤ d.exp then ((10 : ℚ) ^ d.exp.toNat) else 1 / (10 : ℚ) ^ (-d.exp).toNat)

/-- The comparison `self.amount <= 0` performed by `Decimal.__le__`: a
(finite) decimal is ≤ 0 exactly when its sign bit is set or its
coefficient is zero.  `Dec.isNonPos_iff` below proves this agrees with
the rational value of the decimal. -/
def Dec.isNonPos (d : Dec) : Bool := d.sign || d.coeff == 0

def decChars (d : Dec) : List Char :=
  let ds := digitsOf d.coeff
  let n : Int := ds.length
  let adj : Int := d.exp + n - 1
  let body :=
    if d.exp ≤ 0 ∧ -6 ≤ adj then
      if d.exp = 0 then ds
      else if 0 ≤ adj then
        ds.take (n + d.exp).toNat ++ '.' :: ds.drop (n + d.exp).toNat
      else
        '0' :: '.' :: (List.replicate (-adj - 1).toNat '0' ++ ds)
    else
      ds.take 1 ++ ((if 1 < ds.length then '.' :: ds.drop 1 else []) ++
        'E' :: (if 0 ≤ adj then '+' else '-') :: digitsOf adj.natAbs)
  (if d.sign then ['-'] else []) ++ body

def decToString (d : Dec) : String := ⟨decChars d⟩

/-- An optional leading sign: `-` sets the sign bit, `+` is consumed
without effect, anything else leaves the input untouched. -/
def parseSign (cs : List Char) : Bool × List Char :=
  match cs with
  | c :: rest => if c = '-' then (true, rest) else if c = '+' then (false, rest) else (false, cs)
  | [] => (false, cs)

/-- The numeric-string body following the optional sign: integer digits,
optional fraction, optional exponent; at least one coefficient digit and
no trailing characters are required. -/
def decParseBody (sign : Bool) (cs1 : List Char) : Option Dec :=
  let intPart := cs1.takeWhile Char.isDigit
  let cs2 := cs1.dropWhile Char.isDigit
  let (fracPart, cs3) :=
    match cs2 with
    | '.' :: rest => (rest.takeWhile Char.isDigit, rest.dropWhile Char.isDigit)
    | _ => ([], cs2)
  if intPart.length + fracPart.length = 0 then none
  else
    match cs3 with
    | [] => some ⟨sign, natValue (intPart ++ fracPart), -(fracPart.length : Int)⟩
    | e :: rest =>
      if e = 'E' ∨ e = 'e' then
        let (esign, rest1) := parseSign rest
        let eDigits := rest1.takeWhile Char.isDigit
        let rest2 := rest1.dropWhile Char.isDigit
        if eDigits.length = 0 ∨ rest2 ≠ [] then none
        else
          let ev : Int := (if esign then -1 else 1) * natValue eDigits
          some ⟨sign, natValue (intPart ++ fracPart), ev - fracPart.length⟩
      else none

def decParse (cs : List Char) : Option Dec :=
  let (sign, cs1) := parseSign cs
  decParseBody sign cs1

def decOfString? (s : String) : Option Dec := decParse s.data

/-! ## Naive datetimes (`datetime.datetime`) -/

structure DT where
  year : Nat
  month : Nat
  day : Nat
  hour : Nat
  minute : Nat
  second : Nat
  microsecond : Nat
deriving DecidableEq

/-- Python compares naive datetimes lexicographically on their components. -/
def DT.leB (a b : DT) : Bool :=
  if a.year = b.year then
    if a.month = b.month then
      if a.day = b.day then
        if a.hour = b.hour then
          if a.minute = b.minute then
            if a.second = b.second then decide (a.microsecond ≤ b.microsecond)
            else decide (a.second < b.second)
          else decide (a.minute < b.minute)
        else decide (a.hour < b.hour)
      else decide (a.day < b.day)
    else decide (a.month < b.month)
  else decide (a.year < b.year)

/-- `datetime.isoformat()` with the default `timespec="auto"`: microseconds
are printed (to six places) exactly when nonzero. -/
def dtChars (t : DT) : List Char :=
  padNum 4 t.year ++ '-' :: (padNum 2 t.month ++ '-' :: (padNum 2 t.day ++
    'T' :: (padNum 2 t.hour ++ ':' :: (padNum 2 t.minute ++ ':' :: (padNum 2 t.second ++
    (if t.microsecond ≠ 0 then '.' :: padNum 6 t.microsecond else []))))))

def dtToIso (t : DT) : String := ⟨dtChars t⟩

def parseFixedNat (w : Nat) (cs : List Char) : Option (Nat × List Char) :=
  let ds := cs.take w
  if ds.length = w ∧ ds.all Char.isDigit then some (natValue ds, cs.drop w) else none

def expectChar (c : Char) : List Char → Option (List Char)
  | [] => none
  | d :: rest => if d = c then some rest else none

/-- `datetime.fromisoformat` restricted to the shape `isoformat` emits
(`YYYY-MM-DDTHH:MM:SS[.ffffff]`); each field is parsed in turn, any
failure propagating; the field-range checks mirror the constructor's
validation except that the per-month day count is approximated by
`day ≤ 31`. -/
def dtParse (cs : List Char) : Option DT :=
  match parseFixedNat 4 cs with
  | none => none
  | some (year, r1) =>
  match expectChar '-' r1 with
  | none => none
  | some r2 =>
  match parseFixedNat 2 r2 with
  | none => none
  | some (month, r3) =>
  match expectChar '-' r3 with
  | none => none
  | some r4 =>
  match parseFixedNat 2 r4 with
  | none => none
  | some (day, r5) =>
  match expectChar 'T' r5 with
  | none => none
  | some r6 =>
  match parseFixedNat 2 r6 with
  | none => none
  | some (hour, r7) =>
  match expectChar ':' r7 with
  | none => none
  | some r8 =>
  match parseFixedNat 2 r8 with
  | none => none
  | some (minute, r9) =>
  match expectChar ':' r9 with
  | none => none
  | some r10 =>
  match parseFixedNat 2 r10 with
  | none => none
  | some (second, r11) =>
  match (match r11 with
         | [] => some (0, ([] : List Char))
         | '.' :: r => parseFixedNat 6 r
         | _ => none) with
  | none => none
  | some (microsecond, r12) =>
  if r12 = [] ∧ 1 ≤ year ∧ 1 ≤ month ∧ month ≤ 12 ∧ 1 ≤ day ∧ day ≤ 31 ∧
      hour ≤ 23 ∧ minute ≤ 59 ∧ second ≤ 59 then
    some ⟨year, month, day, hour, minute, second, microsecond⟩
  else none

def dtFromIso? (s : String) : Option DT := dtParse s.data

/-- The field ranges every Python `datetime` object satisfies by
construction (`MINYEAR = 1`, `MAXYEAR = 9999`; the per-month day bound is
relaxed to 31). -/
def DTValid (x : DT) : Prop :=
  1 ≤ x.year ∧ x.year ≤ 9999 ∧ 1 ≤ x.month ∧ x.month ≤ 12 ∧ 1 ≤ x.day ∧ x.day ≤ 31 ∧
    x.hour ≤ 23 ∧ x.minute ≤ 59 ∧ x.second ≤ 59 ∧ x.microsecond ≤ 999999

/-- `str(uuid.uuid4())`: five lowercase-hex groups of widths 8-4-4-4-12
joined by dashes; the five group values are the randomness. -/
def uuidString (a b c d e : Nat) : String :=
  ⟨padHex 8 a ++ '-' :: padHex 4 b ++ '-' :: padHex 4 c ++ '-' :: padHex 4 d ++
    '-' :: padHex 12 e⟩

/-! ## Enums (`models/enums.py`) -/

inductive TransactionType where
  | INCOME
  | EXPENSE
deriving DecidableEq

def TransactionType.value : TransactionType → String
  | .INCOME => "INCOME"
  | .EXPENSE => "EXPENSE"

/-- `TransactionType(value)`: raises `ValueError` (here `none`) off the
two member values. -/
def TransactionType.ofString? (s : String) : Option TransactionType :=
  if s = "INCOME" then some .INCOME
  else if s = "EXPENSE" then some .EXPENSE
  else none

inductive CategoryType where
  | INCOME
  | EXPENSE
deriving DecidableEq

def CategoryType.value : CategoryType → String
  | .INCOME => "INCOME"
  | .EXPENSE => "EXPENSE"

def CategoryType.ofString? (s : String) : Option CategoryType :=
  if s = "INCOME" then some .INCOME
  else if s = "EXPENSE" then some .EXPENSE
  else none

/-! ## Transaction model (`models/transaction.py`)

A `Transaction` is the dataclass as it stands after `__post_init__`, so
`id`, `date` and `created_at` are always present. -/

structure Transaction where
  amount : Dec
  description : String
  category : String
  transaction_type : TransactionType
  date : DT
  id : String
  created_at : DT
deriving DecidableEq

/-- `Transaction(...)` followed by `__post_init__`: a missing `id` is
replaced by `str(uuid.uuid4())` (the five random groups are the `u`
parameter), missing `date`/`created_at` by `datetime.now()` (`now`). -/
def Transaction.postInit (amount : Dec) (description category : String)
    (transaction_type : TransactionType) (date : Option DT) (id : Option String)
    (created_at : Option DT) (now : DT) (u : Nat × Nat × Nat × Nat × Nat) : Transaction :=
  { amount := amount, description := description, category := category,
    transaction_type := transaction_type,
    id := id.getD (uuidString u.1 u.2.1 u.2.2.1 u.2.2.2.1 u.2.2.2.2),
    date := date.getD now,
    created_at := created_at.getD now }

/-- `Transaction.validate`.  The `isinstance` checks on `amount`,
`transaction_type` and `date` are identically true in this typed model
and contribute no errors. -/
def Transaction.validate (t : Transaction) : List String :=
  (if t.amount.isNonPos then ["Amount must be greater than zero"] else []) ++
  (if t.description = "" ∨ pyStrip t.description = [] then ["Description is required"]
   else if 200 < (pyStrip t.description).length then
     ["Description must be 200 characters or less"]
   else []) ++
  (if t.category = "" ∨ pyStrip t.category = [] then ["Category is required"] else [])

def Transaction.is_valid (t : Transaction) : Bool := t.validate.length = 0

/-- The dictionary produced by `Transaction.to_dict`: every field is
serialized to a string (`id`, `description`, `category` verbatim). -/
structure TxnD where
  id : String
  amount : String
  description : String
  category : String
  date : String
  transaction_type : String
  created_at : String
deriving DecidableEq

def Transaction.to_dict (t : Transaction) : TxnD :=
  { id := t.id, amount := decToString t.amount, description := t.description,
    category := t.category, date := dtToIso t.date,
    transaction_type := t.transaction_type.value,
    created_at := dtToIso t.created_at }

/-- `Transaction.from_dict` on a dictionary of the `to_dict` shape:
parse failures (bad amount string, bad type tag, bad timestamp) model the
exceptions the Python constructor raises; an empty (falsy) `date` or
`created_at` string is passed to the constructor as `None` and filled
with `datetime.now()` (`now`) by `__post_init__`. -/
def Transaction.from_dict (now : DT) (d : TxnD) : Option Transaction := do
  let amount ← decOfString? d.amount
  let ttype ← TransactionType.ofString? d.transaction_type
  let date ← if d.date = "" then some now else dtFromIso? d.date
  let created ← if d.created_at = "" then some now else dtFromIso? d.created_at
  some { amount := amount, description := d.description, category := d.category,
         transaction_type := ttype, date := date, id := d.id, created_at := created }

/-! ## Category model (`models/category.py`) -/

structure Category where
  name : String
  category_type : CategoryType
  is_default : Bool
deriving DecidableEq

def Category.validate (c : Category) : List String :=
  (if c.name = "" ∨ pyStrip c.name = [] then ["Category name is required"]
   else if 50 < (pyStrip c.name).length then ["Category name must be 50 characters or less"]
   else [])

def Category.is_valid (c : Category) : Bool := c.validate.length = 0

structure CatD where
  name : String
  category_type : String
  is_default : Bool
deriving DecidableEq

def Category.to_dict (c : Category) : CatD :=
  { name := c.name, category_type := c.category_type.value, is_default := c.is_default }

def Category.from_dict (d : CatD) : Option Category := do
  let ty ← CategoryType.ofString? d.category_type
  some { name := d.name, category_type := ty, is_default := d.is_default }

/-! ## The JSON repository (`repositories/json_repository.py`)

`JSONRepository._data` is modelled by `Doc`: the `transactions` and
`categories` lists hold the dictionaries the file stores, and `metadata`
the (string-valued, possibly missing) metadata keys the code touches.
The store file's current contents are carried alongside as
`RepoState.file`, recorded as the document it encodes; the byte-level
write protocol behind `_save_data` is modelled separately by the
`WriteStep` machine below. -/

structure Metadata where
  version : Option String := none
  created_at : Option String := none
  last_modified : Option String := none
deriving DecidableEq

structure Doc where
  transactions : List TxnD
  categories : List CatD
  metadata : Metadata
deriving DecidableEq

structure RepoState where
  doc : Doc
  file : Doc
deriving DecidableEq

/-- `_save_data`: stamps `metadata['last_modified']` with
`datetime.now().isoformat()` and atomically replaces the store file with
the serialized document.  The `IOError` branch is not taken in this
in-memory model (the interrupted-write behaviour is the `WriteStep`
machine's subject). -/
def saveData (now : DT) (s : RepoState) : Bool × RepoState :=
  let doc := { s.doc with metadata := { s.doc.metadata with last_modified := some (dtToIso now) } }
  (true, { doc := doc, file := doc })

/-- The first-match replace-else-append loop shared by `save_transaction`
and `save_category`: scan for the first element satisfying `hit`
(`existing_index`), replace it with `x` if found, append `x` otherwise. -/
def upsert {α : Type} (hit : α → Bool) (x : α) : List α → List α
  | [] => [x]
  | y :: ys => if hit y then x :: ys else y :: upsert hit x ys

/-- `save_transaction`: reject invalid records, otherwise upsert
`transaction.to_dict()` keyed on `id` and persist. -/
def save_transaction (now : DT) (s : RepoState) (t : Transaction) : Bool × RepoState :=
  if !t.is_valid then (false, s)
  else
    let newTxns := upsert (fun d => d.id == t.id) t.to_dict s.doc.transactions
    saveData now { s with doc := { s.doc with transactions := newTxns } }

/-- `get_transaction`: linear scan by `id`; a record that fails to parse
raises inside the `try`, which the handler converts to `None`. -/
def get_transaction (now : DT) (doc : Doc) (transaction_id : String) : Option Transaction :=
  match doc.transactions.find? (fun d => d.id == transaction_id) with
  | some d => Transaction.from_dict now d
  | none => none

/-- The stable insertion step of `transactions.sort(key=..., reverse=True)`:
an element is placed before the first later element whose date is
(weakly) smaller, so equal dates keep their original order, as Python's
stable sort does. -/
def insertByDateDesc (t : Transaction) : List Transaction → List Transaction
  | [] => [t]
  | u :: us => if DT.leB u.date t.date then t :: u :: us else u :: insertByDateDesc t us

def sortByDateDesc : List Transaction → List Transaction
  | [] => []
  | t :: ts => insertByDateDesc t (sortByDateDesc ts)

/-- `get_all_transactions`: parse every stored record, skipping (with a
logged warning) any that fails, then sort by date, newest first. -/
def get_all_transactions (now : DT) (doc : Doc) : List Transaction :=
  sortByDateDesc (doc.transactions.filterMap (Transaction.from_dict now))

/-- `save_category`: reject invalid records, otherwise upsert
`category.to_dict()` keyed on `name` and persist. -/
def save_category (now : DT) (s : RepoState) (c : Category) : Bool × RepoState :=
  if !c.is_valid then (false, s)
  else
    let newCats := upsert (fun d => d.name == c.name) c.to_dict s.doc.categories
    saveData now { s with doc := { s.doc with categories := newCats } }

/-- `get_category`: linear scan by `name`; a parse failure on the found
record raises and is converted to `None` by the handler. -/
def get_category (doc : Doc) (category_name : String) : Option Category :=
  match doc.categories.find? (fun d => d.name == category_name) with
  | some d => Category.from_dict d
  | none => none

/-- `delete_category` (repository): refuse if any stored category with
this name carries `is_default`; otherwise filter it out and persist iff
the list shrank. -/
def delete_category (now : DT) (s : RepoState) (category_name : String) : Bool × RepoState :=
  if s.doc.categories.any (fun d => d.name == category_name && d.is_default) then (false, s)
  else
    let remaining := s.doc.categories.filter (fun d => !(d.name == category_name))
    if remaining.length < s.doc.categories.length then
      saveData now { s with doc := { s.doc with categories := remaining } }
    else (false, s)

/-! ## The category service (`services/category_service.py`) -/

/-- The loop body of `CategoryService._is_category_in_use` iterates the
`Transaction` objects returned by `get_all_transactions` but calls
`transaction_data.get('category')` on them; `Transaction` is a dataclass
with no `get` method, so the first iteration raises `AttributeError`
(modelled by `.error`); an empty list completes and reports `False`. -/
def inUseLoop : List Transaction → String → Except Unit Bool
  | [], _ => .ok false
  | _ :: _, _ => .error ()

/-- `_is_category_in_use`: the `except Exception` handler turns the
`AttributeError` into `True` ("assume in use if we can't check"). -/
def is_category_in_use (now : DT) (doc : Doc) (category_name : String) : Bool :=
  match inUseLoop (get_all_transactions now doc) category_name with
  | .ok b => b
  | .error _ => true

/-- `CategoryService.delete_category`: not-found, default, and in-use
all report `False`; only otherwise is the repository deletion invoked. -/
def service_delete_category (now : DT) (s : RepoState) (category_name : String) :
    Bool × RepoState :=
  match get_category s.doc category_name with
  | none => (false, s)
  | some cat =>
    if cat.is_default then (false, s)
    else if is_category_in_use now s.doc category_name then (false, s)
    else delete_category now s category_name

/-! ## The schema-migration engine (`utils/data_manager.py`, `DataMigration`)

The migration engine works on loosely-typed documents: `RawTxn`,
`RawCat`, `RawMeta` and `RawDoc` model the dictionaries with every key
optional (`none` standing for an absent key; JSON `null` values, which
the code never writes, are conflated with absence).  Wall-clock reads
are threaded as parameters: `now` for `datetime.now().isoformat()` and
`stamp` for `datetime.now().strftime('%Y%m%d_%H%M%S')`. -/

structure RawTxn where
  id : Option String := none
  amount : Option String := none
  description : Option String := none
  category : Option String := none
  date : Option String := none
  transaction_type : Option String := none
  created_at : Option String := none
  updated_at : Option String := none
deriving DecidableEq

structure RawCat where
  name : Option String := none
  category_type : Option String := none
  is_default : Option Bool := none
  created_at : Option String := none
deriving DecidableEq

structure RawMeta where
  created_at : Option String := none
  last_accessed : Option String := none
  last_modified : Option String := none
  total_transactions : Option Nat := none
  total_categories : Option Nat := none
deriving DecidableEq

structure HistEntry where
  from_version : String
  to_version : String
  migrated_at : String
deriving DecidableEq

structure RawDoc where
  schema_version : Option String := none
  transactions : List RawTxn := []
  categories : List RawCat := []
  metadata : Option RawMeta := none
  settings : Option String := none
  migration_history : List HistEntry := []
deriving DecidableEq

def CURRENT_VERSION : String := "1.0.0"

/-- `get_data_version`: `data.get('schema_version', '0.8.0')`. -/
def get_data_version (data : RawDoc) : String := data.schema_version.getD "0.8.0"

def needs_migration (data : RawDoc) : Bool := get_data_version data ≠ CURRENT_VERSION

/-- `_migrate_from_0_8_0`: fill missing `created_at`/`updated_at` on
transactions (defaulting to the record's `date`, else now) and missing
`created_at`/`is_default` on categories. -/
def migrate_from_0_8_0 (now : String) (data : RawDoc) : RawDoc :=
  { data with
    transactions := data.transactions.map fun t =>
      { t with
        created_at := some (t.created_at.getD (t.date.getD now)),
        updated_at := some (t.updated_at.getD (t.date.getD now)) },
    categories := data.categories.map fun c =>
      { c with
        created_at := some (c.created_at.getD now),
        is_default := some (c.is_default.getD false) } }

/-- `_migrate_from_0_9_0`: create `metadata` if absent and give every
transaction with a falsy (absent or empty) `id` the stamped identifier
`tx_<stamp>_<index>`. -/
def migrate_from_0_9_0 (now stamp : String) (data : RawDoc) : RawDoc :=
  let withMeta :=
    match data.metadata with
    | some _ => data
    | none =>
      { data with metadata := some {
          created_at := some now, last_accessed := some now,
          total_transactions := some data.transactions.length,
          total_categories := some data.categories.length } }
  { withMeta with
    transactions := withMeta.transactions.mapIdx fun i t =>
      if t.id = none ∨ t.id = some "" then
        { t with id := some ("tx_" ++ stamp ++ "_" ++ toString i) }
      else t }

/-- `migrate_data`: return current-version documents unchanged;
otherwise run the 0.8.0→0.9.0 and 0.9.0→1.0.0 transitions that apply in
order, stamp `schema_version`, and append a single run-level
`migration_history` entry recording the originally detected version. -/
def migrate_data (now stamp : String) (data : RawDoc) : RawDoc :=
  let current_version := get_data_version data
  if current_version = CURRENT_VERSION then data
  else
    let step1 :=
      if current_version = "0.8.0" then (migrate_from_0_8_0 now data, "0.9.0")
      else (data, current_version)
    let md2 := if step1.2 = "0.9.0" then migrate_from_0_9_0 now stamp step1.1 else step1.1
    { md2 with
      schema_version := some CURRENT_VERSION,
      migration_history := md2.migration_history ++
        [⟨get_data_version data, CURRENT_VERSION, now⟩] }

/-! ## The backup manager (`utils/error_handling.py`, `BackupManager`)

The backup directory is a list of `DirEntry` (filename plus the `stat`
fields the code reads), in `os.listdir` order.  `removeStep` models one
iteration of the deletion loop of `cleanup_old_backups`: `os.remove`
deletes the named file, raising `OSError` — logged and skipped, the loop
continuing — when the environment predicate `failsAt` says so (or when
the file is already gone). -/

structure DirEntry where
  name : String
  ctime : Nat
  mtime : Nat
  size : Nat
deriving DecidableEq

/-- The dictionary `list_backups` builds per file (`path` is the
filename rejoined to the fixed backup directory and is represented by the
filename itself). -/
structure BackupInfo where
  filename : String
  size : Nat
  created : Nat
  modified : Nat
deriving DecidableEq

def toBackupInfo (f : DirEntry) : BackupInfo := ⟨f.name, f.size, f.ctime, f.mtime⟩

/-- `filename.endswith('.json')`. -/
def isJsonB (f : DirEntry) : Bool := List.isSuffixOf ".json".data f.name.data

/-- One insertion step of the stable `backups.sort(key=..., reverse=True)`:
a (listdir-earlier) element is placed before the first element whose
`created` key is not larger, so equal keys keep their original order,
matching Python's stable sort. -/
def insertByCreatedDesc (b : BackupInfo) : List BackupInfo → List BackupInfo
  | [] => [b]
  | c :: cs => if c.created ≤ b.created then b :: c :: cs else c :: insertByCreatedDesc b cs

def sortByCreatedDesc : List BackupInfo → List BackupInfo
  | [] => []
  | b :: bs => insertByCreatedDesc b (sortByCreatedDesc bs)

/-- `list_backups`: keep the `.json` files, read their stats, sort by
creation time, newest first. -/
def list_backups (dir : List DirEntry) : List BackupInfo :=
  sortByCreatedDesc ((dir.filter isJsonB).map toBackupInfo)

def removeStep (failsAt : String → Bool) (st : Nat × List DirEntry) (b : BackupInfo) :
    Nat × List DirEntry :=
  if st.2.any (fun f => f.name == b.filename) && !failsAt b.filename then
    (st.1 + 1, st.2.filter (fun f => !(f.name == b.filename)))
  else st

/-- `cleanup_old_backups`: nothing to do when at most `keep_count`
backups exist; otherwise delete every backup past the first `keep_count`
of the newest-first listing, counting successful removals. -/
def cleanup_old_backups (failsAt : String → Bool) (keep_count : Nat) (dir : List DirEntry) :
    Nat × List DirEntry :=
  let backups := list_backups dir
  if backups.length ≤ keep_count then (0, dir)
  else (backups.drop keep_count).foldl (removeStep failsAt) (0, dir)

/-! ## Loading and corruption recovery (`json_repository.py`, `_load_data`)

The store file's contents are modelled by their parse outcome:
`StoredContent.dict` is a JSON object (each expected key possibly
missing), and `StoredContent.corrupt` stands for contents that
`json.load` rejects (`JSONDecodeError`) or that parse to a non-dict
(`ValueError "Invalid data format"`) — both reach
`_handle_data_corruption`.  `ts` is the corruption-backup timestamp
`datetime.now().strftime('%Y%m%d_%H%M%S')` and `now` the ISO timestamp
used in fresh metadata. -/

inductive StoredContent where
  | dict (transactions : Option (List TxnD)) (categories : Option (List CatD))
      (metadata : Option Metadata)
  | corrupt
deriving DecidableEq

structure LoadFS where
  store : Option StoredContent
  backups : List (String × StoredContent)
deriving DecidableEq

/-- The fresh empty envelope `_load_data`/`_handle_data_corruption`
initialize. -/
def emptyEnvelope (now : String) : Doc :=
  { transactions := [], categories := [],
    metadata := { version := some "1.0", created_at := some now,
                  last_modified := some now } }

def serializeDoc (d : Doc) : StoredContent :=
  .dict (some d.transactions) (some d.categories) (some d.metadata)

/-- `_save_data` at the file level: stamp `last_modified` and replace the
store file with the serialized document. -/
def saveDataFS (now : String) (doc : Doc) (fs : LoadFS) : Doc × LoadFS :=
  let stamped := { doc with metadata := { doc.metadata with last_modified := some now } }
  (stamped, { fs with store := some (serializeDoc stamped) })

/-- `_handle_data_corruption`: if the store file exists, copy it (still
unreadable) into the backup directory under
`corrupted_data_<timestamp>.json`, then reinitialize the in-memory
document to the empty envelope and save it. -/
def handle_data_corruption (ts now : String) (fs : LoadFS) : Doc × LoadFS :=
  let fs1 :=
    match fs.store with
    | some c => { fs with backups := fs.backups ++
        [("corrupted_data_" ++ ts ++ ".json", c)] }
    | none => fs
  saveDataFS now (emptyEnvelope now) fs1

/-- `_load_data`: parse the store file if it exists, filling any missing
`transactions`/`categories`/`metadata` key; create and save a fresh
envelope when the file is absent; divert to the corruption handler (no
exception escapes) when parsing fails. -/
def load_data (ts now : String) (fs : LoadFS) : Doc × LoadFS :=
  match fs.store with
  | some (.dict t? c? m?) =>
    ({ transactions := t?.getD [], categories := c?.getD [], metadata := m?.getD {} }, fs)
  | some .corrupt => handle_data_corruption ts now fs
  | none => saveDataFS now (emptyEnvelope now) fs

/-! ## The atomic write protocol (`_save_data`,
`DataPersistenceManager.save_data`)

The byte-level effect of a save is a sequence of `WriteStep`s on a
`FileState` (store file, temp file, backup directory).  Interrupting the
save after any number of steps is modelled by executing a prefix of the
sequence. -/

inductive WriteStep where
  | writeTmp (content : String)
  | removeTmp
  | copyToBackup (name : String)
  | rename
deriving DecidableEq

structure FileState where
  store : Option String
  tmp : Option String
  backups : List (String × Option String)
deriving DecidableEq

def applyStep (fs : FileState) : WriteStep → FileState
  | .writeTmp c => { fs with tmp := some c }
  | .removeTmp => { fs with tmp := none }
  | .copyToBackup n => { fs with backups := fs.backups ++ [(n, fs.store)] }
  | .rename => { store := fs.tmp, tmp := none, backups := fs.backups }

def execSteps (fs : FileState) (steps : List WriteStep) : FileState :=
  steps.foldl applyStep fs

/-- `JSONRepository._save_data`: write the serialized document to
`<store>.tmp`, then `Path.replace` the temp file over the store file. -/
def repoSaveSteps (content : String) : List WriteStep := [.writeTmp content, .rename]

/-- `DataPersistenceManager.save_data`: optional validation round-trip
through the same `.tmp` path (write, validate, remove), optional
`create_backup` copy of the current store file, then the temp write and
the atomic `shutil.move` over the store file. -/
def managerSaveSteps (validate backup : Bool) (content : String) (backupName : String) :
    List WriteStep :=
  (if validate then [.writeTmp content, .removeTmp] else []) ++
  (if backup then [.copyToBackup backupName] else []) ++
  [.writeTmp content, .rename]

/-! ## Lemmas about the repository operations -/

lemma Dec.isNonPos_iff (d : Dec) : d.isNonPos = true ↔ d.toRat ≤ 0 := by
  set f : ℚ := (if 0 ≤ d.exp then ((10 : ℚ) ^ d.exp.toNat) else
      1 / (10 : ℚ) ^ (-d.exp).toNat) with hfdef
  have hf : 0 < f := by
    rw [hfdef]
    split <;> positivity
  cases hs : d.sign with
  | false =>
    have ht : d.toRat = (d.coeff : ℚ) * f := by
      unfold Dec.toRat
      rw [hs, ← hfdef]
      simp
    unfold Dec.isNonPos
    rw [hs, ht]
    simp only [Bool.false_or, beq_iff_eq]
    constructor
    · intro h
      rw [h]
      simp
    · intro h
      by_contra hne
      have hpos : (0 : ℚ) < (d.coeff : ℚ) := by
        exact_mod_cast Nat.pos_of_ne_zero hne
      nlinarith
  | true =>
    have ht : d.toRat = -(d.coeff : ℚ) * f := by
      unfold Dec.toRat
      rw [hs, ← hfdef]
      simp
    unfold Dec.isNonPos
    rw [hs, ht]
    simp only [Bool.true_or, true_iff]
    have hc : (0 : ℚ) ≤ (d.coeff : ℚ) := by positivity
    nlinarith

lemma insertByDateDesc_ne_nil (t : Transaction) (l : List Transaction) :
    insertByDateDesc t l ≠ [] := by
  cases l with
  | nil => simp [insertByDateDesc]
  | cons u us =>
    unfold insertByDateDesc
    by_cases h : DT.leB u.date t.date <;> simp [h]

lemma sortByDateDesc_ne_nil (t : Transaction) (l : List Transaction) :
    sortByDateDesc (t :: l) ≠ [] := by
  simpa [sortByDateDesc] using insertByDateDesc_ne_nil t (sortByDateDesc l)

lemma get_all_transactions_ne_nil {now : DT} {doc : Doc} {td : TxnD}
    (hmem : td ∈ doc.transactions) (hparse : (Transaction.from_dict now td).isSome) :
    get_all_transactions now doc ≠ [] := by
  obtain ⟨t, ht⟩ := Option.isSome_iff_exists.mp hparse
  have hmem' : t ∈ doc.transactions.filterMap (Transaction.from_dict now) :=
    List.mem_filterMap.mpr ⟨td, hmem, ht⟩
  unfold get_all_transactions
  cases hfm : doc.transactions.filterMap (Transaction.from_dict now) with
  | nil => rw [hfm] at hmem'; cases hmem'
  | cons u us => exact sortByDateDesc_ne_nil u us

lemma is_category_in_use_of_ne_nil {now : DT} {doc : Doc} {name : String}
    (h : get_all_transactions now doc ≠ []) : is_category_in_use now doc name = true := by
  unfold is_category_in_use
  cases hl : get_all_transactions now doc with
  | nil => exact absurd hl h
  | cons t ts => rfl

lemma upsert_spec {α : Type} (hit : α → Bool) (x : α) (l : List α) :
    (∃ pre old post, l = pre ++ old :: post ∧ hit old = true ∧ (∀ y ∈ pre, hit y = false) ∧
      upsert hit x l = pre ++ x :: post) ∨
    ((∀ y ∈ l, hit y = false) ∧ upsert hit x l = l ++ [x]) := by
  induction l with
  | nil => right; exact ⟨by simp, by simp [upsert]⟩
  | cons y ys ih =>
    by_cases h : hit y
    · left
      exact ⟨[], y, ys, by simp, h, by simp, by simp [upsert, h]⟩
    · rcases ih with ⟨pre, old, post, hl, hold, hpre, hup⟩ | ⟨hall, hup⟩
      · left
        refine ⟨y :: pre, old, post, by simp [hl], hold, ?_, ?_⟩
        · intro z hz
          rcases List.mem_cons.mp hz with rfl | hz'
          · simpa using h
          · exact hpre z hz'
        · simp [upsert, h, hup]
      · right
        refine ⟨?_, by simp [upsert, h, hup]⟩
        intro z hz
        rcases List.mem_cons.mp hz with rfl | hz'
        · simpa using h
        · exact hall z hz'

lemma upsert_key_mem {α β : Type} (key : α → β) [DecidableEq β] (x : α) (l : List α)
    {z : β} (hz : z ∈ (upsert (fun y => key y == key x) x l).map key) :
    z = key x ∨ z ∈ l.map key := by
  induction l with
  | nil => simpa [upsert] using hz
  | cons y ys ih =>
    by_cases h : key y == key x
    · simp only [upsert, h, if_pos] at hz
      rcases List.mem_map.mp hz with ⟨w, hw, rfl⟩
      rcases List.mem_cons.mp hw with rfl | hw'
      · exact Or.inl rfl
      · exact Or.inr (by simp [List.mem_map]; exact Or.inr ⟨w, hw', rfl⟩)
    · simp only [upsert, h, if_neg, Bool.false_eq_true, not_false_iff] at hz
      rcases List.mem_map.mp hz with ⟨w, hw, rfl⟩
      rcases List.mem_cons.mp hw with rfl | hw'
      · exact Or.inr (by simp)
      · rcases ih (List.mem_map.mpr ⟨w, hw', rfl⟩) with h1 | h1
        · exact Or.inl h1
        · exact Or.inr (by simp [h1])

lemma upsert_map_key_nodup {α β : Type} (key : α → β) [DecidableEq β] (x : α) (l : List α)
    (h : (l.map key).Nodup) : ((upsert (fun y => key y == key x) x l).map key).Nodup := by
  induction l with
  | nil => simp [upsert]
  | cons y ys ih =>
    rw [List.map_cons] at h
    rcases List.nodup_cons.mp h with ⟨hy, hys⟩
    by_cases hk : key y == key x
    · have heq : key y = key x := by simpa using hk
      simp only [upsert, hk, if_pos, List.map_cons, List.nodup_cons]
      exact ⟨by rw [← heq]; exact hy, hys⟩
    · simp only [upsert, hk, if_neg, Bool.false_eq_true, not_false_iff, List.map_cons,
        List.nodup_cons]
      refine ⟨?_, ih hys⟩
      intro hmem
      rcases upsert_key_mem key x ys hmem with h1 | h1
      · exact absurd (by simpa using h1) (by simpa using hk)
      · exact hy h1

lemma upsert_length_of_hit {α : Type} (hit : α → Bool) (x : α) (l : List α)
    (h : ∃ y ∈ l, hit y = true) : (upsert hit x l).length = l.length := by
  rcases upsert_spec hit x l with ⟨pre, old, post, hl, _, _, hup⟩ | ⟨hall, _⟩
  · rw [hup, hl]; simp
  · obtain ⟨y, hy, hhit⟩ := h
    exact absurd hhit (by simp [hall y hy])

/-! ## Claim theorems C1-C4 -/

/-- C1: for every category name referenced by at least one (parseable)
stored transaction, the service-level `deleteCategory` returns `False`
and leaves the state unchanged, whichever guard fires: not-found and
default-category report failure directly, and the in-use check reports
"in use" for any nonempty transaction list (its record accessor raises
`AttributeError` on `Transaction` objects, which the handler converts to
`True`). -/
theorem deleteCategory_in_use_fails (now : DT) (s : RepoState) (name : String)
    (h : ∃ td ∈ s.doc.transactions, td.category = name ∧
      (Transaction.from_dict now td).isSome) :
    service_delete_category now s name = (false, s) := by
  obtain ⟨td, hmem, _, hparse⟩ := h
  have hinuse : is_category_in_use now s.doc name = true :=
    is_category_in_use_of_ne_nil (get_all_transactions_ne_nil hmem hparse)
  unfold service_delete_category
  cases hc : get_category s.doc name with
  | none => rfl
  | some cat =>
    by_cases hd : cat.is_default <;> simp [hd, hinuse]

/-- C1 witness: a one-transaction, one-category store refuses to delete
the referenced category `"Food"`. -/
theorem deleteCategory_in_use_fails_witness :
    service_delete_category ⟨2024, 1, 2, 3, 4, 5, 0⟩
      ⟨⟨[⟨"t1", "100.50", "Coffee", "Food", "2024-01-02T03:04:05",
          "EXPENSE", "2024-01-02T03:04:05"⟩],
        [⟨"Food", "EXPENSE", false⟩], {}⟩,
       ⟨[], [], {}⟩⟩ "Food" =
      (false,
       ⟨⟨[⟨"t1", "100.50", "Coffee", "Food", "2024-01-02T03:04:05",
           "EXPENSE", "2024-01-02T03:04:05"⟩],
         [⟨"Food", "EXPENSE", false⟩], {}⟩,
        ⟨[], [], {}⟩⟩) :=
  deleteCategory_in_use_fails _ _ _
    ⟨⟨"t1", "100.50", "Coffee", "Food", "2024-01-02T03:04:05",
        "EXPENSE", "2024-01-02T03:04:05"⟩, by simp, rfl, by decide⟩

/-- C2: `delete_category` on the name of any stored category whose
`is_default` flag is set returns `False` and leaves the document (and
the store file) unchanged. -/
theorem deleteCategory_default_protected (now : DT) (s : RepoState) (name : String)
    (h : ∃ c ∈ s.doc.categories, c.name = name ∧ c.is_default = true) :
    delete_category now s name = (false, s) := by
  obtain ⟨c, hmem, hname, hdef⟩ := h
  have hany : s.doc.categories.any (fun d => d.name == name && d.is_default) = true :=
    List.any_eq_true.mpr ⟨c, hmem, by simp [hname, hdef]⟩
  unfold delete_category
  simp [hany]

/-- C2 witness: deleting the seeded default category `"Salary"` fails and
changes nothing. -/
theorem deleteCategory_default_protected_witness :
    delete_category ⟨2024, 1, 2, 3, 4, 5, 0⟩
      ⟨⟨[], [⟨"Salary", "INCOME", true⟩], {}⟩, ⟨[], [], {}⟩⟩ "Salary" =
      (false, ⟨⟨[], [⟨"Salary", "INCOME", true⟩], {}⟩, ⟨[], [], {}⟩⟩) :=
  deleteCategory_default_protected _ _ _ ⟨⟨"Salary", "INCOME", true⟩, by simp, rfl, rfl⟩

/-- C3: `save_transaction` returns `False` on any record that fails
validation, leaving the in-memory document and the store file untouched;
on a valid record it succeeds and either replaces the first stored
record carrying the same identifier or appends the new record. -/
theorem saveTransaction_validates_and_upserts (now : DT) (s : RepoState) (t : Transaction) :
    (¬ t.is_valid = true → save_transaction now s t = (false, s)) ∧
    (t.is_valid = true →
      (save_transaction now s t).1 = true ∧
      ((∃ pre old post, s.doc.transactions = pre ++ old :: post ∧ old.id = t.id ∧
          (∀ d ∈ pre, d.id ≠ t.id) ∧
          (save_transaction now s t).2.doc.transactions = pre ++ t.to_dict :: post) ∨
       ((∀ d ∈ s.doc.transactions, d.id ≠ t.id) ∧
        (save_transaction now s t).2.doc.transactions =
          s.doc.transactions ++ [t.to_dict]))) := by
  constructor
  · intro hv
    have hv' : t.is_valid = false := by
      cases h : t.is_valid
      · rfl
      · exact absurd h hv
    simp [save_transaction, hv']
  · intro hv
    rcases upsert_spec (fun d => d.id == t.id) t.to_dict s.doc.transactions with
      ⟨pre, old, post, hl, hold, hpre, hup⟩ | ⟨hall, hup⟩
    · refine ⟨by simp [save_transaction, hv, saveData], Or.inl
        ⟨pre, old, post, hl, by simpa using hold, fun d hd => by simpa using hpre d hd, ?_⟩⟩
      simp [save_transaction, hv, saveData, hup]
    · refine ⟨by simp [save_transaction, hv, saveData], Or.inr
        ⟨fun d hd => by simpa using hall d hd, ?_⟩⟩
      simp [save_transaction, hv, saveData, hup]

/-- C3 witness: an invalid record (empty description) is rejected without
change, and a valid one is appended to an empty store. -/
theorem saveTransaction_validates_and_upserts_witness :
    (save_transaction ⟨2024, 1, 2, 3, 4, 5, 0⟩ ⟨⟨[], [], {}⟩, ⟨[], [], {}⟩⟩
      ⟨⟨false, 10050, -2⟩, "", "Food", .EXPENSE, ⟨2024, 1, 2, 3, 4, 5, 0⟩, "t1",
        ⟨2024, 1, 2, 3, 4, 5, 0⟩⟩ = (false, ⟨⟨[], [], {}⟩, ⟨[], [], {}⟩⟩)) ∧
    (save_transaction ⟨2024, 1, 2, 3, 4, 5, 0⟩ ⟨⟨[], [], {}⟩, ⟨[], [], {}⟩⟩
      ⟨⟨false, 10050, -2⟩, "Coffee", "Food", .EXPENSE, ⟨2024, 1, 2, 3, 4, 5, 0⟩, "t1",
        ⟨2024, 1, 2, 3, 4, 5, 0⟩⟩).1 = true := by
  constructor
  · exact (saveTransaction_validates_and_upserts _ _ _).1 (by decide)
  · exact ((saveTransaction_validates_and_upserts _ _ _).2 (by decide)).1

/-- C4: identifier uniqueness is preserved by every save: if the stored
transaction identifiers (resp. category names) are pairwise distinct they
remain so after `save_transaction` (resp. `save_category`), and a save
whose key matches an existing record keeps the record count unchanged
(replacement, not duplication). -/
theorem save_preserves_uniqueness (now : DT) (s : RepoState) (t : Transaction) (c : Category) :
    ((s.doc.transactions.map TxnD.id).Nodup →
      ((save_transaction now s t).2.doc.transactions.map TxnD.id).Nodup) ∧
    ((∃ d ∈ s.doc.transactions, d.id = t.id) →
      (save_transaction now s t).2.doc.transactions.length = s.doc.transactions.length) ∧
    ((s.doc.categories.map CatD.name).Nodup →
      ((save_category now s c).2.doc.categories.map CatD.name).Nodup) ∧
    ((∃ d ∈ s.doc.categories, d.name = c.name) →
      (save_category now s c).2.doc.categories.length = s.doc.categories.length) := by
  have hkeyT : (fun d => TxnD.id d == TxnD.id t.to_dict) = (fun d => d.id == t.id) := by
    funext d; simp [Transaction.to_dict]
  have hkeyC : (fun d => CatD.name d == CatD.name c.to_dict) = (fun d => d.name == c.name) := by
    funext d; simp [Category.to_dict]
  refine ⟨?_, ?_, ?_, ?_⟩
  · intro hnd
    by_cases hv : t.is_valid
    · have := upsert_map_key_nodup TxnD.id t.to_dict s.doc.transactions hnd
      rw [hkeyT] at this
      simpa [save_transaction, hv, saveData] using this
    · simp only [Bool.not_eq_true] at hv
      simpa [save_transaction, hv] using hnd
  · intro hex
    by_cases hv : t.is_valid
    · have := upsert_length_of_hit (fun d => d.id == t.id) t.to_dict s.doc.transactions
        (by obtain ⟨d, hd, hid⟩ := hex; exact ⟨d, hd, by simp [hid]⟩)
      simpa [save_transaction, hv, saveData] using this
    · simp only [Bool.not_eq_true] at hv
      simp [save_transaction, hv]
  · intro hnd
    by_cases hv : c.is_valid
    · have := upsert_map_key_nodup CatD.name c.to_dict s.doc.categories hnd
      rw [hkeyC] at this
      simpa [save_category, hv, saveData] using this
    · simp only [Bool.not_eq_true] at hv
      simpa [save_category, hv] using hnd
  · intro hex
    by_cases hv : c.is_valid
    · have := upsert_length_of_hit (fun d => d.name == c.name) c.to_dict s.doc.categories
        (by obtain ⟨d, hd, hn⟩ := hex; exact ⟨d, hd, by simp [hn]⟩)
      simpa [save_category, hv, saveData] using this
    · simp only [Bool.not_eq_true] at hv
      simp [save_category, hv]

/-- C4 witness: on a store holding one transaction `"t1"` and one
category `"Food"`, re-saving records with the same keys keeps the ids
and names duplicate-free and the counts at one. -/
theorem save_preserves_uniqueness_witness :
    (((save_transaction ⟨2024, 1, 2, 3, 4, 5, 0⟩
        ⟨⟨[⟨"t1", "1", "Tea", "Food", "", "EXPENSE", ""⟩], [⟨"Food", "EXPENSE", false⟩], {}⟩,
          ⟨[], [], {}⟩⟩
        ⟨⟨false, 10050, -2⟩, "Coffee", "Food", .EXPENSE, ⟨2024, 1, 2, 3, 4, 5, 0⟩, "t1",
          ⟨2024, 1, 2, 3, 4, 5, 0⟩⟩).2.doc.transactions.map TxnD.id).Nodup ∧
     (save_transaction ⟨2024, 1, 2, 3, 4, 5, 0⟩
        ⟨⟨[⟨"t1", "1", "Tea", "Food", "", "EXPENSE", ""⟩], [⟨"Food", "EXPENSE", false⟩], {}⟩,
          ⟨[], [], {}⟩⟩
        ⟨⟨false, 10050, -2⟩, "Coffee", "Food", .EXPENSE, ⟨2024, 1, 2, 3, 4, 5, 0⟩, "t1",
          ⟨2024, 1, 2, 3, 4, 5, 0⟩⟩).2.doc.transactions.length = 1) ∧
    (((save_category ⟨2024, 1, 2, 3, 4, 5, 0⟩
        ⟨⟨[], [⟨"Food", "EXPENSE", false⟩], {}⟩, ⟨[], [], {}⟩⟩
        ⟨"Food", .EXPENSE, true⟩).2.doc.categories.map CatD.name).Nodup ∧
     (save_category ⟨2024, 1, 2, 3, 4, 5, 0⟩
        ⟨⟨[], [⟨"Food", "EXPENSE", false⟩], {}⟩, ⟨[], [], {}⟩⟩
        ⟨"Food", .EXPENSE, true⟩).2.doc.categories.length = 1) := by
  refine ⟨⟨?_, ?_⟩, ?_, ?_⟩
  · exact (save_preserves_uniqueness _ _ _ ⟨"Food", .EXPENSE, true⟩).1 (by decide)
  · exact (save_preserves_uniqueness _ _ _ ⟨"Food", .EXPENSE, true⟩).2.1
      ⟨⟨"t1", "1", "Tea", "Food", "", "EXPENSE", ""⟩, by simp, rfl⟩
  · exact (save_preserves_uniqueness _ _
      ⟨⟨false, 1, 0⟩, "x", "x", .EXPENSE, ⟨2024, 1, 2, 3, 4, 5, 0⟩, "t1",
        ⟨2024, 1, 2, 3, 4, 5, 0⟩⟩ _).2.2.1 (by decide)
  · exact (save_preserves_uniqueness _ _
      ⟨⟨false, 1, 0⟩, "x", "x", .EXPENSE, ⟨2024, 1, 2, 3, 4, 5, 0⟩, "t1",
        ⟨2024, 1, 2, 3, 4, 5, 0⟩⟩ _).2.2.2
      ⟨⟨"Food", "EXPENSE", false⟩, by simp, rfl⟩

/-! ## Claim theorems C5-C6 -/

lemma get_data_version_migrate_data (now stamp : String) (d : RawDoc) :
    get_data_version (migrate_data now stamp d) = CURRENT_VERSION := by
  simp only [migrate_data]
  by_cases h : get_data_version d = CURRENT_VERSION
  · rw [if_pos h]
    exact h
  · rw [if_neg h]
    rfl

/-- C5: migration is idempotent: `migrate(migrate(D)) = migrate(D)` for
every document (and any pair of wall-clock readings), and a document
already at the current target version is returned unchanged, so no
`migration_history` entry is appended. -/
theorem migrate_data_idempotent (n1 s1 n2 s2 : String) (d : RawDoc) :
    migrate_data n2 s2 (migrate_data n1 s1 d) = migrate_data n1 s1 d ∧
    (get_data_version d = CURRENT_VERSION → migrate_data n1 s1 d = d) := by
  constructor
  · have hv := get_data_version_migrate_data n1 s1 d
    set X := migrate_data n1 s1 d with hX
    simp only [migrate_data]
    rw [if_pos hv]
  · intro h
    simp only [migrate_data]
    rw [if_pos h]

/-- C5 witness: a stale (versionless) document migrates to a fixed point,
and a current-version document is untouched. -/
theorem migrate_data_idempotent_witness :
    (migrate_data "T1" "S1" (migrate_data "T0" "S0" {schema_version := none}) =
      migrate_data "T0" "S0" {schema_version := none}) ∧
    (migrate_data "T0" "S0" {schema_version := some "1.0.0"} =
      {schema_version := some "1.0.0"}) :=
  ⟨(migrate_data_idempotent "T0" "S0" "T1" "S1" {schema_version := none}).1,
   (migrate_data_idempotent "T0" "S0" "T1" "S1" {schema_version := some "1.0.0"}).2 rfl⟩

/-- C6: a document with no `schema_version` key is treated as version
`0.8.0`: it needs migration, and migrating it stamps `schema_version`
`1.0.0` and appends exactly one `migration_history` entry recording the
run from `0.8.0` to `1.0.0`, regardless of the chained transitions. -/
theorem migrate_data_absent_version (now stamp : String) (d : RawDoc)
    (h : d.schema_version = none) :
    needs_migration d = true ∧
    (migrate_data now stamp d).schema_version = some "1.0.0" ∧
    (migrate_data now stamp d).migration_history =
      d.migration_history ++ [⟨"0.8.0", "1.0.0", now⟩] := by
  have hv : get_data_version d = "0.8.0" := by simp [get_data_version, h]
  have hne : ¬ get_data_version d = CURRENT_VERSION := by
    simp [hv, CURRENT_VERSION]
  have h09 : ∀ x : RawDoc,
      (migrate_from_0_9_0 now stamp x).migration_history = x.migration_history := by
    intro x
    unfold migrate_from_0_9_0
    cases hm : x.metadata <;> simp [hm]
  refine ⟨?_, ?_, ?_⟩
  · simp [needs_migration, hv, CURRENT_VERSION]
  · simp only [migrate_data]
    rw [if_neg hne]
    rfl
  · simp only [migrate_data]
    rw [if_neg hne]
    simp only [hv]
    simp [h09, migrate_from_0_8_0, CURRENT_VERSION]

/-- C6 witness: migrating a concrete versionless document with one
id-less transaction yields `1.0.0` and the single recorded run. -/
theorem migrate_data_absent_version_witness :
    needs_migration {transactions := [{category := some "Food"}]} = true ∧
    (migrate_data "2024-01-02T03:04:05" "20240102_030405"
      {transactions := [{category := some "Food"}]}).schema_version = some "1.0.0" ∧
    (migrate_data "2024-01-02T03:04:05" "20240102_030405"
      {transactions := [{category := some "Food"}]}).migration_history =
      [⟨"0.8.0", "1.0.0", "2024-01-02T03:04:05"⟩] :=
  migrate_data_absent_version "2024-01-02T03:04:05" "20240102_030405"
    {transactions := [{category := some "Food"}]} rfl

/-! ## Lemmas about the backup manager -/

lemma insertByCreatedDesc_perm (b : BackupInfo) (l : List BackupInfo) :
    List.Perm (insertByCreatedDesc b l) (b :: l) := by
  induction l with
  | nil => rfl
  | cons c cs ih =>
    unfold insertByCreatedDesc
    by_cases h : c.created ≤ b.created
    · rw [if_pos h]
    · rw [if_neg h]
      exact (ih.cons c).trans (List.Perm.swap b c cs)

lemma sortByCreatedDesc_perm (l : List BackupInfo) : List.Perm (sortByCreatedDesc l) l := by
  induction l with
  | nil => rfl
  | cons b bs ih =>
    exact (insertByCreatedDesc_perm b (sortByCreatedDesc bs)).trans (ih.cons b)

lemma insertByCreatedDesc_pairwise (b : BackupInfo) (l : List BackupInfo)
    (h : l.Pairwise (fun x y => y.created ≤ x.created)) :
    (insertByCreatedDesc b l).Pairwise (fun x y => y.created ≤ x.created) := by
  induction l with
  | nil => simp [insertByCreatedDesc]
  | cons c cs ih =>
    rcases List.pairwise_cons.mp h with ⟨hc, hcs⟩
    unfold insertByCreatedDesc
    by_cases hle : c.created ≤ b.created
    · rw [if_pos hle]
      refine List.pairwise_cons.mpr ⟨?_, h⟩
      intro y hy
      rcases List.mem_cons.mp hy with rfl | hy'
      · exact hle
      · exact le_trans (hc y hy') hle
    · rw [if_neg hle]
      refine List.pairwise_cons.mpr ⟨?_, ih hcs⟩
      intro y hy
      rcases List.mem_cons.mp ((insertByCreatedDesc_perm b cs).mem_iff.mp hy) with rfl | hy'
      · exact le_of_not_le hle
      · exact hc y hy'

lemma sortByCreatedDesc_pairwise (l : List BackupInfo) :
    (sortByCreatedDesc l).Pairwise (fun x y => y.created ≤ x.created) := by
  induction l with
  | nil => simp [sortByCreatedDesc]
  | cons b bs ih => exact insertByCreatedDesc_pairwise b _ ih

lemma removeFold_name_subset (failsAt : String → Bool) :
    ∀ (todel : List BackupInfo) (c0 : Nat) (d : List DirEntry) (x : String),
      x ∈ (todel.foldl (removeStep failsAt) (c0, d)).2.map DirEntry.name →
      x ∈ d.map DirEntry.name := by
  intro todel
  induction todel with
  | nil => intro c0 d x hx; exact hx
  | cons b rest ih =>
    intro c0 d x hx
    rw [List.foldl_cons] at hx
    unfold removeStep at hx
    by_cases hc : (d.any (fun f => f.name == b.filename) && !failsAt b.filename) = true
    · simp only [hc, if_pos] at hx
      have := ih _ _ _ hx
      rcases List.mem_map.mp this with ⟨f, hf, rfl⟩
      exact List.mem_map.mpr ⟨f, List.mem_of_mem_filter hf, rfl⟩
    · simp only [hc, if_neg, Bool.not_eq_true, not_false_iff] at hx
      exact ih _ _ _ hx

lemma removeFold_removes (failsAt : String → Bool) :
    ∀ (todel : List BackupInfo) (c0 : Nat) (d : List DirEntry) (b : BackupInfo),
      b ∈ todel → failsAt b.filename = false →
      b.filename ∉ (todel.foldl (removeStep failsAt) (c0, d)).2.map DirEntry.name := by
  intro todel
  induction todel with
  | nil => intro c0 d b hb; cases hb
  | cons hd rest ih =>
    intro c0 d b hb hfail hmem
    rw [List.foldl_cons] at hmem
    rcases List.mem_cons.mp hb with rfl | hb'
    · cases hany : d.any (fun f => f.name == b.filename) with
      | true =>
        have hstep : removeStep failsAt (c0, d) b =
            (c0 + 1, d.filter (fun f => !(f.name == b.filename))) := by
          unfold removeStep
          simp [hany, hfail]
        rw [hstep] at hmem
        have := removeFold_name_subset failsAt rest _ _ _ hmem
        rcases List.mem_map.mp this with ⟨f, hf, hname⟩
        have := List.of_mem_filter hf
        rw [hname] at this
        simp at this
      | false =>
        have hstep : removeStep failsAt (c0, d) b = (c0, d) := by
          unfold removeStep
          simp [hany]
        rw [hstep] at hmem
        have := removeFold_name_subset failsAt rest _ _ _ hmem
        rcases List.mem_map.mp this with ⟨f, hf, hname⟩
        have hcontra : d.any (fun g => g.name == b.filename) = true :=
          List.any_eq_true.mpr ⟨f, hf, by simp [hname]⟩
        rw [hany] at hcontra
        cases hcontra
    · exact ih _ _ _ hb' hfail hmem

lemma removeFold_all (failsAt : String → Bool) (hfail : ∀ s, failsAt s = false) :
    ∀ (todel : List BackupInfo) (c0 : Nat) (d : List DirEntry),
      (∀ b ∈ todel, b.filename ∈ d.map DirEntry.name) →
      (todel.map BackupInfo.filename).Nodup →
      todel.foldl (removeStep failsAt) (c0, d) =
        (c0 + todel.length,
         d.filter (fun f => decide (f.name ∉ todel.map BackupInfo.filename))) := by
  intro todel
  induction todel with
  | nil =>
    intro c0 d _ _
    simp
  | cons b rest ih =>
    intro c0 d hmem hnd
    rw [List.map_cons, List.nodup_cons] at hnd
    have hb : b.filename ∈ d.map DirEntry.name := hmem b (by simp)
    rcases List.mem_map.mp hb with ⟨f, hf, hfname⟩
    have hany : d.any (fun g => g.name == b.filename) = true :=
      List.any_eq_true.mpr ⟨f, hf, by simp [hfname]⟩
    have hstep : removeStep failsAt (c0, d) b =
        (c0 + 1, d.filter (fun g => !(g.name == b.filename))) := by
      unfold removeStep
      simp [hany, hfail]
    rw [List.foldl_cons, hstep, ih (c0 + 1) _ ?_ hnd.2]
    · refine Prod.ext (by simp; omega) ?_
      simp only [List.filter_filter]
      refine List.filter_congr ?_
      intro g _
      simp only [List.map_cons, List.mem_cons, not_or]
      by_cases h1 : g.name = b.filename <;>
        by_cases h2 : g.name ∈ rest.map BackupInfo.filename <;>
          simp [h1, h2]
    · intro b' hb'
      have hmem' : b'.filename ∈ d.map DirEntry.name := hmem b' (by simp [hb'])
      rcases List.mem_map.mp hmem' with ⟨g, hg, hgname⟩
      have hne : b'.filename ≠ b.filename := by
        intro hcontra
        exact hnd.1 (hcontra ▸ List.mem_map.mpr ⟨b', hb', rfl⟩)
      refine List.mem_map.mpr ⟨g, List.mem_filter.mpr ⟨hg, ?_⟩, hgname⟩
      simp [hgname, hne]

lemma filter_name_map_toBackupInfo (p : String → Bool) (l : List DirEntry) :
    (l.filter (fun f => p f.name)).map toBackupInfo =
      (l.map toBackupInfo).filter (fun b => p b.filename) := by
  induction l with
  | nil => rfl
  | cons f fs ih =>
    by_cases h : p f.name
    · simp [h, toBackupInfo, ih]
    · simp [h, toBackupInfo, ih]

lemma take_drop_pairwise {α : Type} {R : α → α → Prop} {l : List α} (n : Nat)
    (h : l.Pairwise R) : ∀ x ∈ l.take n, ∀ y ∈ l.drop n, R x y := by
  have := List.take_append_drop n l
  rw [← this] at h
  exact fun x hx y hy => (List.pairwise_append.mp h).2.2 x hx y hy

lemma list_backups_filename_nodup {dir : List DirEntry}
    (h : (dir.map DirEntry.name).Nodup) :
    ((list_backups dir).map BackupInfo.filename).Nodup := by
  have hsub : ((dir.filter isJsonB).map DirEntry.name).Nodup :=
    h.sublist (List.Sublist.map DirEntry.name (List.filter_sublist dir))
  have hmapeq : ((dir.filter isJsonB).map toBackupInfo).map BackupInfo.filename =
      (dir.filter isJsonB).map DirEntry.name := by
    rw [List.map_map]
    rfl
  have hperm : List.Perm ((list_backups dir).map BackupInfo.filename)
      (((dir.filter isJsonB).map toBackupInfo).map BackupInfo.filename) :=
    (sortByCreatedDesc_perm _).map BackupInfo.filename
  rw [hmapeq] at hperm
  exact hperm.nodup_iff.mpr hsub

/-- C8: backup retention.  With `M = |list_backups dir|` existing
backups: when `M ≤ keep`, cleanup deletes nothing and returns `0`; the
kept first `keep` of the listing are at least as recently created as
every deleted one; when `keep < M` and no deletion fails, the deleted
count is `M - keep` and the surviving `.json` entries are exactly (a
permutation of) the `keep` newest; and whatever other deletions fail, a
backup past the cutoff whose own deletion does not fail is removed — the
loop is not aborted by failures elsewhere. -/
theorem cleanup_old_backups_retention (failsAt : String → Bool) (keep : Nat)
    (dir : List DirEntry) :
    ((list_backups dir).length ≤ keep →
      cleanup_old_backups failsAt keep dir = (0, dir)) ∧
    (∀ x ∈ (list_backups dir).take keep, ∀ y ∈ (list_backups dir).drop keep,
      y.created ≤ x.created) ∧
    (keep < (list_backups dir).length → (∀ s, failsAt s = false) →
      (dir.map DirEntry.name).Nodup →
      (cleanup_old_backups failsAt keep dir).1 = (list_backups dir).length - keep ∧
      List.Perm
        (((cleanup_old_backups failsAt keep dir).2.filter isJsonB).map toBackupInfo)
        ((list_backups dir).take keep)) ∧
    (∀ b ∈ (list_backups dir).drop keep, keep < (list_backups dir).length →
      failsAt b.filename = false →
      b.filename ∉ ((cleanup_old_backups failsAt keep dir).2.map DirEntry.name)) := by
  refine ⟨?_, ?_, ?_, ?_⟩
  · intro h
    simp only [cleanup_old_backups]
    rw [if_pos h]
  · exact take_drop_pairwise keep (sortByCreatedDesc_pairwise _)
  · intro hlt hfail hnd
    have hpermL : List.Perm (list_backups dir) ((dir.filter isJsonB).map toBackupInfo) :=
      sortByCreatedDesc_perm _
    have hmemdir : ∀ b ∈ (list_backups dir).drop keep,
        b.filename ∈ dir.map DirEntry.name := by
      intro b hb
      have hbL : b ∈ list_backups dir :=
        (List.take_append_drop keep (list_backups dir)) ▸ List.mem_append_right _ hb
      rcases List.mem_map.mp (hpermL.mem_iff.mp hbL) with ⟨f, hf, rfl⟩
      exact List.mem_map.mpr ⟨f, List.mem_of_mem_filter hf, rfl⟩
    have hfnames := list_backups_filename_nodup hnd
    have hsplit : ((list_backups dir).take keep).map BackupInfo.filename ++
        ((list_backups dir).drop keep).map BackupInfo.filename =
        (list_backups dir).map BackupInfo.filename := by
      rw [← List.map_append, List.take_append_drop]
    have hfnames' := hfnames
    rw [← hsplit] at hfnames'
    rcases List.nodup_append.mp hfnames' with ⟨hndtake, hnddrop, hdisj⟩
    have hfold := removeFold_all failsAt hfail ((list_backups dir).drop keep) 0 dir
      hmemdir hnddrop
    have hcleanup : cleanup_old_backups failsAt keep dir =
        (0 + ((list_backups dir).drop keep).length,
         dir.filter (fun f =>
           decide (f.name ∉ ((list_backups dir).drop keep).map BackupInfo.filename))) := by
      simp only [cleanup_old_backups]
      rw [if_neg (not_le.mpr hlt)]
      exact hfold
    constructor
    · rw [hcleanup]
      simp
    · rw [hcleanup]
      have hcomm : (dir.filter (fun f =>
          decide (f.name ∉ ((list_backups dir).drop keep).map BackupInfo.filename))).filter
            isJsonB =
          (dir.filter isJsonB).filter (fun f =>
            decide (f.name ∉ ((list_backups dir).drop keep).map BackupInfo.filename)) := by
        simp only [List.filter_filter]
        exact List.filter_congr (fun f _ => Bool.and_comm _ _)
      rw [hcomm, filter_name_map_toBackupInfo
        (fun s => decide (s ∉ ((list_backups dir).drop keep).map BackupInfo.filename))]
      have hpermF : List.Perm
          (((dir.filter isJsonB).map toBackupInfo).filter (fun b =>
            decide (b.filename ∉ ((list_backups dir).drop keep).map BackupInfo.filename)))
          ((list_backups dir).filter (fun b =>
            decide (b.filename ∉ ((list_backups dir).drop keep).map BackupInfo.filename))) :=
        (hpermL.symm).filter _
      have hLfilter : ∀ p : BackupInfo → Bool,
          (∀ b ∈ (list_backups dir).take keep, p b = true) →
          (∀ b ∈ (list_backups dir).drop keep, p b = false) →
          (list_backups dir).filter p = (list_backups dir).take keep := by
        intro p hp1 hp2
        conv_lhs => rw [← List.take_append_drop keep (list_backups dir)]
        rw [List.filter_append, List.filter_eq_self.mpr hp1,
          List.filter_eq_nil_iff.mpr (fun b hb => by simp [hp2 b hb]), List.append_nil]
      rw [← hLfilter (fun b =>
          decide (b.filename ∉ ((list_backups dir).drop keep).map BackupInfo.filename))
        (fun b hb => by
          simp only [decide_eq_true_eq]
          exact hdisj (List.mem_map.mpr ⟨b, hb, rfl⟩))
        (fun b hb => by
          simp only [decide_eq_false_iff_not, not_not]
          exact List.mem_map.mpr ⟨b, hb, rfl⟩)]
      exact hpermF
  · intro b hb hlt hbfail
    have hcl : cleanup_old_backups failsAt keep dir =
        ((list_backups dir).drop keep).foldl (removeStep failsAt) (0, dir) := by
      simp only [cleanup_old_backups]
      rw [if_neg (not_le.mpr hlt)]
    rw [hcl]
    exact removeFold_removes failsAt _ 0 dir b hb hbfail

/-- C8 witness: three backups, keep one: the two oldest are deleted, the
newest survives; with a retention count above the population nothing
happens. -/
theorem cleanup_old_backups_retention_witness :
    (cleanup_old_backups (fun _ => false) 5
      [⟨"a.json", 1, 1, 10⟩, ⟨"b.json", 3, 3, 10⟩, ⟨"c.json", 2, 2, 10⟩] =
      (0, [⟨"a.json", 1, 1, 10⟩, ⟨"b.json", 3, 3, 10⟩, ⟨"c.json", 2, 2, 10⟩])) ∧
    ((cleanup_old_backups (fun _ => false) 1
      [⟨"a.json", 1, 1, 10⟩, ⟨"b.json", 3, 3, 10⟩, ⟨"c.json", 2, 2, 10⟩]).1 =
      (list_backups
        [⟨"a.json", 1, 1, 10⟩, ⟨"b.json", 3, 3, 10⟩, ⟨"c.json", 2, 2, 10⟩]).length - 1) ∧
    List.Perm
      (((cleanup_old_backups (fun _ => false) 1
        [⟨"a.json", 1, 1, 10⟩, ⟨"b.json", 3, 3, 10⟩, ⟨"c.json", 2, 2, 10⟩]).2.filter
          isJsonB).map toBackupInfo)
      ((list_backups
        [⟨"a.json", 1, 1, 10⟩, ⟨"b.json", 3, 3, 10⟩, ⟨"c.json", 2, 2, 10⟩]).take 1) ∧
    ("a.json" ∉ ((cleanup_old_backups (fun _ => false) 1
      [⟨"a.json", 1, 1, 10⟩, ⟨"b.json", 3, 3, 10⟩, ⟨"c.json", 2, 2, 10⟩]).2.map
        DirEntry.name)) := by
  refine ⟨?_, ?_, ?_, ?_⟩
  · exact (cleanup_old_backups_retention (fun _ => false) 5 _).1 (by decide)
  · exact ((cleanup_old_backups_retention (fun _ => false) 1 _).2.2.1 (by decide)
      (fun _ => rfl) (by decide)).1
  · exact ((cleanup_old_backups_retention (fun _ => false) 1 _).2.2.1 (by decide)
      (fun _ => rfl) (by decide)).2
  · exact (cleanup_old_backups_retention (fun _ => false) 1 _).2.2.2
      ⟨"a.json", 10, 1, 1⟩ (by decide) (by decide) rfl

/-! ## Claim theorems C9-C10 -/

/-- C9: loading a store file whose contents cannot be parsed as the
expected envelope first copies the unreadable contents to a backup named
`corrupted_data_<timestamp>.json` and then reinitializes the in-memory
document to a fresh envelope with no transactions and no categories —
the load returns normally instead of propagating the parse error. -/
theorem load_data_corruption_recovery (ts now : String) (fs : LoadFS)
    (h : fs.store = some .corrupt) :
    (load_data ts now fs).1.transactions = [] ∧
    (load_data ts now fs).1.categories = [] ∧
    (load_data ts now fs).2.backups =
      fs.backups ++ [("corrupted_data_" ++ ts ++ ".json", .corrupt)] := by
  simp [load_data, h, handle_data_corruption, saveDataFS, emptyEnvelope, serializeDoc]

/-- C9 witness: a store holding corrupt bytes loads to the empty
envelope and banks the corrupted original. -/
theorem load_data_corruption_recovery_witness :
    (load_data "20240102_030405" "2024-01-02T03:04:05"
      ⟨some .corrupt, []⟩).1.transactions = [] ∧
    (load_data "20240102_030405" "2024-01-02T03:04:05"
      ⟨some .corrupt, []⟩).1.categories = [] ∧
    (load_data "20240102_030405" "2024-01-02T03:04:05"
      ⟨some .corrupt, []⟩).2.backups =
      [("corrupted_data_20240102_030405.json", .corrupt)] :=
  load_data_corruption_recovery "20240102_030405" "2024-01-02T03:04:05"
    ⟨some .corrupt, []⟩ rfl

/-- C10: in the step relation of a save, the store file is untouched by
every step except the final rename: any single non-rename step preserves
the store contents, any rename-free step sequence preserves them — in
particular every prefix of `_save_data`'s or `save_data`'s step list cut
before the rename — and running `_save_data`'s steps to completion makes
the rename install exactly the written content. -/
theorem atomic_write_protocol :
    (∀ (fs : FileState) (s : WriteStep), s ≠ .rename →
      (applyStep fs s).store = fs.store) ∧
    (∀ (fs : FileState) (steps : List WriteStep), .rename ∉ steps →
      (execSteps fs steps).store = fs.store) ∧
    (∀ (fs : FileState) (content : String) (n : Nat),
      .rename ∉ (repoSaveSteps content).take n →
      (execSteps fs ((repoSaveSteps content).take n)).store = fs.store) ∧
    (∀ (fs : FileState) (validate backup : Bool) (content bname : String) (n : Nat),
      .rename ∉ (managerSaveSteps validate backup content bname).take n →
      (execSteps fs ((managerSaveSteps validate backup content bname).take n)).store =
        fs.store) ∧
    (∀ (fs : FileState) (content : String),
      (execSteps fs (repoSaveSteps content)).store = some content) := by
  have h1 : ∀ (fs : FileState) (s : WriteStep), s ≠ .rename →
      (applyStep fs s).store = fs.store := by
    intro fs s hs
    cases s with
    | writeTmp c => rfl
    | removeTmp => rfl
    | copyToBackup n => rfl
    | rename => exact absurd rfl hs
  have h2 : ∀ (steps : List WriteStep) (fs : FileState), .rename ∉ steps →
      (execSteps fs steps).store = fs.store := by
    intro steps
    induction steps with
    | nil => intro fs _; rfl
    | cons s rest ih =>
      intro fs hmem
      have hs : s ≠ .rename := fun hc => hmem (hc ▸ List.mem_cons_self s rest)
      have hrest : WriteStep.rename ∉ rest := fun hc => hmem (List.mem_cons_of_mem s hc)
      calc (execSteps fs (s :: rest)).store
          = (execSteps (applyStep fs s) rest).store := rfl
        _ = (applyStep fs s).store := ih (applyStep fs s) hrest
        _ = fs.store := h1 fs s hs
  refine ⟨h1, fun fs steps h => h2 steps fs h, ?_, ?_, ?_⟩
  · intro fs content n h
    exact h2 _ fs h
  · intro fs validate backup content bname n h
    exact h2 _ fs h
  · intro fs content
    rfl

/-- C10 witness: interrupting the orchestrator's save (validation and
backup enabled) after its first three steps leaves the original store
bytes in place; the completed repository save installs the new bytes. -/
theorem atomic_write_protocol_witness :
    ((applyStep ⟨some "old", none, []⟩ (.writeTmp "new")).store = some "old") ∧
    ((execSteps ⟨some "old", none, []⟩
      ((managerSaveSteps true true "new" "b.json").take 3)).store = some "old") ∧
    ((execSteps ⟨some "old", none, []⟩ (repoSaveSteps "new")).store = some "new") :=
  ⟨atomic_write_protocol.1 ⟨some "old", none, []⟩ (.writeTmp "new") (by decide),
   atomic_write_protocol.2.2.2.1 ⟨some "old", none, []⟩ true true "new" "b.json" 3
     (by decide),
   atomic_write_protocol.2.2.2.2 ⟨some "old", none, []⟩ "new"⟩

/-! ## Lemmas about digit strings -/

lemma digitsBEAux_zero (b : Nat) : ∀ fuel, digitsBEAux b fuel 0 = [] := by
  intro fuel
  cases fuel <;> rfl

lemma digitsBEAux_succ (b fuel n : Nat) (hn : n ≠ 0) :
    digitsBEAux b (fuel + 1) n = digitsBEAux b fuel (n / b) ++ [Nat.digitChar (n % b)] := by
  cases n with
  | zero => exact absurd rfl hn
  | succ m => rfl

lemma digitsBE_cons (b n : Nat) (hne : n ≠ 0) :
    digitsBE b n = digitsBEAux b (n - 1) (n / b) ++ [Nat.digitChar (n % b)] := by
  unfold digitsBE
  obtain ⟨m, rfl⟩ : ∃ m, n = m + 1 := ⟨n - 1, by omega⟩
  simpa using digitsBEAux_succ b m (m + 1) hne

lemma digitsBEAux_fuel_eq (b : Nat) (hb : 2 ≤ b) (n : Nat) :
    ∀ fuel, n ≤ fuel → digitsBEAux b fuel n = digitsBE b n := by
  induction n using Nat.strong_induction_on with
  | _ n ih =>
    intro fuel hfuel
    rcases Nat.eq_zero_or_pos n with rfl | hpos
    · rw [digitsBEAux_zero]
      exact (digitsBEAux_zero b 0).symm
    · have hne : n ≠ 0 := Nat.pos_iff_ne_zero.mp hpos
      obtain ⟨f, rfl⟩ : ∃ f, fuel = f + 1 := ⟨fuel - 1, by omega⟩
      have hdiv : n / b < n := Nat.div_lt_self hpos (by omega)
      rw [digitsBEAux_succ b f n hne, digitsBE_cons b n hne,
        ih (n / b) hdiv f (by omega), ih (n / b) hdiv (n - 1) (by omega)]

lemma charDigit_digitChar {d : Nat} (h : d < 10) : charDigit (Nat.digitChar d) = d := by
  interval_cases d <;> rfl

lemma isDigit_digitChar {d : Nat} (h : d < 10) : (Nat.digitChar d).isDigit = true := by
  interval_cases d <;> rfl

lemma natValue_from (acc : Nat) (ds : List Char) :
    ds.foldl (fun a c => a * 10 + charDigit c) acc = acc * 10 ^ ds.length + natValue ds := by
  induction ds generalizing acc with
  | nil => simp [natValue]
  | cons c cs ih =>
    have h1 : natValue (c :: cs) = charDigit c * 10 ^ cs.length + natValue cs := by
      have h0 : natValue (c :: cs) =
          cs.foldl (fun a x => a * 10 + charDigit x) (0 * 10 + charDigit c) := rfl
      rw [h0, ih]
      ring_nf
    rw [List.foldl_cons, ih (acc * 10 + charDigit c), h1, List.length_cons]
    ring

lemma natValue_append (a b : List Char) :
    natValue (a ++ b) = natValue a * 10 ^ b.length + natValue b := by
  unfold natValue
  rw [List.foldl_append]
  exact natValue_from _ b

lemma natValue_cons_zero (l : List Char) : natValue ('0' :: l) = natValue l := by
  unfold natValue
  rw [List.foldl_cons]
  rfl

lemma natValue_replicate_zero (k : Nat) (l : List Char) :
    natValue (List.replicate k '0' ++ l) = natValue l := by
  induction k with
  | zero => rfl
  | succ j ih => rw [List.replicate_succ, List.cons_append, natValue_cons_zero, ih]

lemma digitsBE_spec (n : Nat) :
    natValue (digitsBE 10 n) = n ∧ ∀ c ∈ digitsBE 10 n, c.isDigit = true := by
  induction n using Nat.strong_induction_on with
  | _ n ih =>
    rcases Nat.eq_zero_or_pos n with rfl | hpos
    · exact ⟨rfl, by simp [digitsBE, digitsBEAux]⟩
    · have hne : n ≠ 0 := Nat.pos_iff_ne_zero.mp hpos
      have hdiv : n / 10 < n := Nat.div_lt_self hpos (by omega)
      have hstep : digitsBE 10 n = digitsBE 10 (n / 10) ++ [Nat.digitChar (n % 10)] := by
        rw [digitsBE_cons 10 n hne,
          digitsBEAux_fuel_eq 10 (by omega) (n / 10) (n - 1) (by omega)]
      obtain ⟨ihv, ihd⟩ := ih (n / 10) hdiv
      constructor
      · rw [hstep, natValue_append, ihv]
        have hone : natValue [Nat.digitChar (n % 10)] = n % 10 := by
          have h0 : natValue [Nat.digitChar (n % 10)] =
              0 * 10 + charDigit (Nat.digitChar (n % 10)) := rfl
          rw [h0, charDigit_digitChar (Nat.mod_lt n (by omega))]
          omega
        rw [hone]
        simp only [List.length_singleton, pow_one]
        omega
      · rw [hstep]
        intro c hc
        rcases List.mem_append.mp hc with h | h
        · exact ihd c h
        · rcases List.mem_singleton.mp h with rfl
          exact isDigit_digitChar (Nat.mod_lt n (by omega))

lemma natValue_digitsOf (n : Nat) : natValue (digitsOf n) = n := by
  unfold digitsOf
  by_cases h : n = 0
  · subst h
    rfl
  · rw [if_neg h]
    exact (digitsBE_spec n).1

lemma digitsOf_all_digits (n : Nat) : ∀ c ∈ digitsOf n, c.isDigit = true := by
  unfold digitsOf
  by_cases h : n = 0
  · subst h
    intro c hc
    rcases List.mem_singleton.mp hc with rfl
    rfl
  · rw [if_neg h]
    exact (digitsBE_spec n).2

lemma digitsOf_ne_nil (n : Nat) : digitsOf n ≠ [] := by
  unfold digitsOf
  by_cases h : n = 0
  · simp [h]
  · rw [if_neg h]
    obtain ⟨m, rfl⟩ : ∃ m, n = m + 1 := ⟨n - 1, by omega⟩
    unfold digitsBE
    rw [digitsBEAux_succ 10 m (m + 1) h]
    simp

lemma digitsBE_length_le {n : Nat} : ∀ {w : Nat}, n < 10 ^ w → (digitsBE 10 n).length ≤ w := by
  induction n using Nat.strong_induction_on with
  | _ n ih =>
    intro w hw
    rcases Nat.eq_zero_or_pos n with rfl | hpos
    · simp [digitsBE, digitsBEAux]
    · have hne : n ≠ 0 := Nat.pos_iff_ne_zero.mp hpos
      cases w with
      | zero => omega
      | succ v =>
        have hdiv : n / 10 < n := Nat.div_lt_self hpos (by omega)
        have hstep : digitsBE 10 n = digitsBE 10 (n / 10) ++ [Nat.digitChar (n % 10)] := by
          rw [digitsBE_cons 10 n hne,
            digitsBEAux_fuel_eq 10 (by omega) (n / 10) (n - 1) (by omega)]
        rw [hstep, List.length_append]
        have hlt : n / 10 < 10 ^ v := by
          rw [Nat.div_lt_iff_lt_mul (by omega : 0 < 10)]
          calc n < 10 ^ (v + 1) := hw
            _ = 10 ^ v * 10 := by ring
        have := ih (n / 10) hdiv hlt
        simpa using this

lemma digitsOf_length_le {n w : Nat} (h1 : n < 10 ^ w) (h2 : 1 ≤ w) :
    (digitsOf n).length ≤ w := by
  unfold digitsOf
  by_cases h : n = 0
  · simpa [h] using h2
  · rw [if_neg h]
    exact digitsBE_length_le h1

lemma padNum_length {w n : Nat} (h1 : n < 10 ^ w) (h2 : 1 ≤ w) : (padNum w n).length = w := by
  unfold padNum
  rw [List.length_append, List.length_replicate]
  have := digitsOf_length_le h1 h2
  omega

lemma padNum_all_digits (w n : Nat) : ∀ c ∈ padNum w n, c.isDigit = true := by
  intro c hc
  rcases List.mem_append.mp hc with h | h
  · rcases List.eq_of_mem_replicate h with rfl
    rfl
  · exact digitsOf_all_digits n c h

lemma natValue_padNum (w n : Nat) : natValue (padNum w n) = n := by
  unfold padNum
  rw [natValue_replicate_zero, natValue_digitsOf]

lemma parseFixedNat_padNum {w n : Nat} {rest : List Char} (h1 : n < 10 ^ w) (h2 : 1 ≤ w) :
    parseFixedNat w (padNum w n ++ rest) = some (n, rest) := by
  have hlen := padNum_length h1 h2
  have hall : ∀ c ∈ padNum w n, c.isDigit = true := padNum_all_digits w n
  have hnv := natValue_padNum w n
  generalize hP : padNum w n = P at hlen hall hnv
  have htake : (P ++ rest).take w = P := by
    rw [← hlen]
    exact List.take_left _ _
  have hdrop : (P ++ rest).drop w = rest := by
    rw [← hlen]
    exact List.drop_left _ _
  unfold parseFixedNat
  simp only [htake, hdrop]
  rw [if_pos ⟨hlen, List.all_eq_true.mpr hall⟩, hnv]

lemma parseFixedNat_padNum_nil {w n : Nat} (h1 : n < 10 ^ w) (h2 : 1 ≤ w) :
    parseFixedNat w (padNum w n) = some (n, []) := by
  have := @parseFixedNat_padNum w n [] h1 h2
  rwa [List.append_nil] at this

lemma expectChar_cons (c : Char) (rest : List Char) : expectChar c (c :: rest) = some rest := by
  simp [expectChar]

/-! ## The datetime serialization round trip -/

lemma dtParse_dtChars {t : DT} (h : DTValid t) : dtParse (dtChars t) = some t := by
  obtain ⟨year, month, day, hour, minute, second, usec⟩ := t
  obtain ⟨h1, h2, h3, h4, h5, h6, h7, h8, h9, h10⟩ := h
  simp only at h1 h2 h3 h4 h5 h6 h7 h8 h9 h10
  have hy : year < 10 ^ 4 := by norm_num; omega
  have hmo : month < 10 ^ 2 := by norm_num; omega
  have hda : day < 10 ^ 2 := by norm_num; omega
  have hho : hour < 10 ^ 2 := by norm_num; omega
  have hmi : minute < 10 ^ 2 := by norm_num; omega
  have hse : second < 10 ^ 2 := by norm_num; omega
  have hus : usec < 10 ^ 6 := by norm_num; omega
  rcases eq_or_ne usec 0 with hz | hnz
  · subst hz
    simp only [dtChars, dtParse, ne_eq, not_true_eq_false, if_false, List.append_nil,
      parseFixedNat_padNum hy (by norm_num), expectChar_cons,
      parseFixedNat_padNum hmo (by norm_num), parseFixedNat_padNum hda (by norm_num),
      parseFixedNat_padNum hho (by norm_num), parseFixedNat_padNum hmi (by norm_num),
      parseFixedNat_padNum_nil hse (by norm_num)]
    rw [if_pos ⟨trivial, h1, h3, h4, h5, h6, h7, h8, h9⟩]
  · simp only [dtChars, dtParse, ne_eq, hnz, not_false_iff, if_true,
      parseFixedNat_padNum hy (by norm_num), expectChar_cons,
      parseFixedNat_padNum hmo (by norm_num), parseFixedNat_padNum hda (by norm_num),
      parseFixedNat_padNum hho (by norm_num), parseFixedNat_padNum hmi (by norm_num),
      parseFixedNat_padNum hse (by norm_num), parseFixedNat_padNum_nil hus (by norm_num)]
    rw [if_pos ⟨trivial, h1, h3, h4, h5, h6, h7, h8, h9⟩]

/-! ## The decimal serialization round trip -/

lemma takeWhile_append_all {p : Char → Bool} :
    ∀ (ds rest : List Char), (∀ c ∈ ds, p c = true) →
      (∀ r, rest.head? = some r → p r = false) →
      (ds ++ rest).takeWhile p = ds ∧ (ds ++ rest).dropWhile p = rest := by
  intro ds
  induction ds with
  | nil =>
    intro rest _ h2
    cases rest with
    | nil => exact ⟨rfl, rfl⟩
    | cons r rs =>
      have hr := h2 r rfl
      exact ⟨by simp [List.takeWhile_cons, hr], by simp [List.dropWhile_cons, hr]⟩
  | cons c cs ih =>
    intro rest h1 h2
    have hc := h1 c (by simp)
    obtain ⟨iht, ihd⟩ := ih rest (fun x hx => h1 x (by simp [hx])) h2
    exact ⟨by simp [List.takeWhile_cons, hc, iht], by simp [List.dropWhile_cons, hc, ihd]⟩

lemma takeWhile_all {p : Char → Bool} {l : List Char} (h : ∀ c ∈ l, p c = true) :
    l.takeWhile p = l ∧ l.dropWhile p = [] := by
  have := takeWhile_append_all l [] h (by simp)
  simpa using this

lemma isDigit_ne_dash {c : Char} (h : c.isDigit = true) : c ≠ '-' := by
  intro hc
  rw [hc] at h
  exact absurd h (by decide)

lemma isDigit_ne_plus {c : Char} (h : c.isDigit = true) : c ≠ '+' := by
  intro hc
  rw [hc] at h
  exact absurd h (by decide)

lemma parseSign_digit {c : Char} (cs : List Char) (h : c.isDigit = true) :
    parseSign (c :: cs) = (false, c :: cs) := by
  simp [parseSign, isDigit_ne_dash h, isDigit_ne_plus h]

lemma decParseBody_plain (sign : Bool) (l : List Char) (h : ∀ c ∈ l, c.isDigit = true)
    (hne : l ≠ []) : decParseBody sign l = some ⟨sign, natValue l, 0⟩ := by
  obtain ⟨ht, hd⟩ := takeWhile_all h
  have hlen : ¬(l.length = 0) := by simpa [List.length_eq_zero] using hne
  simp [decParseBody, ht, hd, hlen]

lemma decParseBody_point (sign : Bool) (pre post : List Char)
    (hpre : ∀ c ∈ pre, c.isDigit = true) (hpost : ∀ c ∈ post, c.isDigit = true)
    (hne : pre ≠ []) :
    decParseBody sign (pre ++ '.' :: post) =
      some ⟨sign, natValue (pre ++ post), -(post.length : Int)⟩ := by
  have htw := takeWhile_append_all pre ('.' :: post) hpre (fun r hr => by
    simp at hr
    rw [← hr]
    decide)
  obtain ⟨ht2, hd2⟩ := takeWhile_all hpost
  have hlen : ¬(pre.length + post.length = 0) := by
    have : pre.length ≠ 0 := by simpa [List.length_eq_zero] using hne
    omega
  simp [decParseBody, htw.1, htw.2, ht2, hd2, hlen]

lemma decParseBody_sci_nofrac (sign : Bool) (pre eds : List Char) (sc : Char)
    (hpre : ∀ c ∈ pre, c.isDigit = true) (hprene : pre ≠ [])
    (heds : ∀ c ∈ eds, c.isDigit = true) (hedsne : eds ≠ [])
    (hsc : sc = '+' ∨ sc = '-') :
    decParseBody sign (pre ++ 'E' :: sc :: eds) =
      some ⟨sign, natValue pre,
        (if sc = '-' then -(natValue eds : Int) else (natValue eds : Int))⟩ := by
  have htw := takeWhile_append_all pre ('E' :: sc :: eds) hpre (fun r hr => by
    simp at hr
    rw [← hr]
    decide)
  obtain ⟨hte, hde⟩ := takeWhile_all heds
  have hlen : ¬(pre.length + ([] : List Char).length = 0) := by
    have : pre.length ≠ 0 := by simpa [List.length_eq_zero] using hprene
    simpa using this
  have hedlen : ¬(eds.length = 0) := by simpa [List.length_eq_zero] using hedsne
  rcases hsc with rfl | rfl
  · simp [decParseBody, htw.1, htw.2, hte, hde, hlen, hedlen, hprene, parseSign]
  · simp [decParseBody, htw.1, htw.2, hte, hde, hlen, hedlen, hprene, parseSign]

lemma decParseBody_sci_frac (sign : Bool) (pre post eds : List Char) (sc : Char)
    (hpre : ∀ c ∈ pre, c.isDigit = true) (hprene : pre ≠ [])
    (hpost : ∀ c ∈ post, c.isDigit = true)
    (heds : ∀ c ∈ eds, c.isDigit = true) (hedsne : eds ≠ [])
    (hsc : sc = '+' ∨ sc = '-') :
    decParseBody sign (pre ++ '.' :: (post ++ 'E' :: sc :: eds)) =
      some ⟨sign, natValue (pre ++ post),
        (if sc = '-' then -(natValue eds : Int) else (natValue eds : Int)) -
          (post.length : Int)⟩ := by
  have htw := takeWhile_append_all pre ('.' :: (post ++ 'E' :: sc :: eds)) hpre
    (fun r hr => by
      simp at hr
      rw [← hr]
      decide)
  have htw2 := takeWhile_append_all post ('E' :: sc :: eds) hpost (fun r hr => by
    simp at hr
    rw [← hr]
    decide)
  obtain ⟨hte, hde⟩ := takeWhile_all heds
  have hlen : ¬(pre.length + post.length = 0) := by
    have : pre.length ≠ 0 := by simpa [List.length_eq_zero] using hprene
    omega
  have hedlen : ¬(eds.length = 0) := by simpa [List.length_eq_zero] using hedsne
  rcases hsc with rfl | rfl
  · simp [decParseBody, htw.1, htw.2, htw2.1, htw2.2, hte, hde, hlen, hedlen, hprene,
      parseSign]
  · simp [decParseBody, htw.1, htw.2, htw2.1, htw2.2, hte, hde, hlen, hedlen, hprene,
      parseSign]

/-- The scientific-string conversion parses back to the exact
sign/coefficient/exponent triple it was produced from. -/
theorem decParse_decChars (d : Dec) : decParse (decChars d) = some d := by
  obtain ⟨sign, coeff, exp⟩ := d
  have hall := digitsOf_all_digits coeff
  have hnv := natValue_digitsOf coeff
  have hne := digitsOf_ne_nil coeff
  obtain ⟨c0, cs0, hds⟩ : ∃ c0 cs0, digitsOf coeff = c0 :: cs0 := by
    cases hd : digitsOf coeff with
    | nil => exact absurd hd hne
    | cons a l => exact ⟨a, l, rfl⟩
  have hc0 : c0.isDigit = true := hall c0 (by rw [hds]; simp)
  have hcs0 : ∀ c ∈ cs0, c.isDigit = true := fun c hc => hall c (by rw [hds]; simp [hc])
  have hsign : ∀ (body : List Char) (b0 : Char) (bs : List Char), body = b0 :: bs →
      b0.isDigit = true →
      decParse ((if sign then ['-'] else []) ++ body) = decParseBody sign body := by
    intro body b0 bs hb hd
    cases sign with
    | false =>
      subst hb
      simp [decParse, parseSign_digit _ hd]
    | true =>
      simp [decParse, parseSign]
  simp only [decChars]
  by_cases hA : exp ≤ 0 ∧ -6 ≤ exp + ((digitsOf coeff).length : Int) - 1
  · rw [if_pos hA]
    by_cases hexp : exp = 0
    · rw [if_pos hexp, hsign (digitsOf coeff) c0 cs0 hds hc0,
        decParseBody_plain sign _ hall hne, hnv, hexp]
    · by_cases hadj : 0 ≤ exp + ((digitsOf coeff).length : Int) - 1
      · rw [if_neg hexp, if_pos hadj]
        have hk1 : 1 ≤ (((digitsOf coeff).length : Int) + exp).toNat := by omega
        obtain ⟨bs, hbs⟩ : ∃ bs,
            (digitsOf coeff).take ((((digitsOf coeff).length : Int) + exp).toNat) =
              c0 :: bs := by
          obtain ⟨j, hj⟩ : ∃ j, (((digitsOf coeff).length : Int) + exp).toNat = j + 1 :=
            ⟨(((digitsOf coeff).length : Int) + exp).toNat - 1, by omega⟩
          rw [hj, hds, List.take_succ_cons]
          exact ⟨_, rfl⟩
        have hbody : (digitsOf coeff).take ((((digitsOf coeff).length : Int) + exp).toNat) ++
            '.' :: (digitsOf coeff).drop ((((digitsOf coeff).length : Int) + exp).toNat) =
            c0 :: (bs ++
              '.' :: (digitsOf coeff).drop ((((digitsOf coeff).length : Int) + exp).toNat)) := by
          rw [hbs]
          rfl
        rw [hsign _ c0 _ hbody hc0,
          decParseBody_point sign _ _
            (fun c hc => hall c (List.take_subset _ _ hc))
            (fun c hc => hall c (List.drop_subset _ _ hc))
            (by rw [hbs]; simp),
          List.take_append_drop, hnv]
        simp only [Option.some.injEq, Dec.mk.injEq, List.length_drop]
        refine ⟨trivial, trivial, ?_⟩
        omega
      · rw [if_neg hexp, if_neg hadj]
        rw [hsign _ '0'
          ('.' :: (List.replicate (-(exp + ((digitsOf coeff).length : Int) - 1) - 1).toNat '0' ++
            digitsOf coeff)) rfl (by decide)]
        have hshape : ('0' :: '.' ::
            (List.replicate (-(exp + ((digitsOf coeff).length : Int) - 1) - 1).toNat '0' ++
              digitsOf coeff) : List Char) =
            ['0'] ++ '.' ::
              (List.replicate (-(exp + ((digitsOf coeff).length : Int) - 1) - 1).toNat '0' ++
                digitsOf coeff) := rfl
        rw [hshape, decParseBody_point sign _ _
          (by
            intro c hc
            simp at hc
            subst hc
            decide)
          (by
            intro c hc
            rcases List.mem_append.mp hc with h | h
            · rcases List.eq_of_mem_replicate h with rfl
              decide
            · exact hall c h)
          (by simp), List.singleton_append, natValue_cons_zero, natValue_replicate_zero, hnv]
        simp only [Option.some.injEq, Dec.mk.injEq, List.length_append, List.length_replicate]
        refine ⟨trivial, trivial, ?_⟩
        omega
  · rw [if_neg hA]
    have heds := digitsOf_all_digits (exp + ((digitsOf coeff).length : Int) - 1).natAbs
    have hedne := digitsOf_ne_nil (exp + ((digitsOf coeff).length : Int) - 1).natAbs
    have hednv := natValue_digitsOf (exp + ((digitsOf coeff).length : Int) - 1).natAbs
    have ht1 : (digitsOf coeff).take 1 = [c0] := by
      rw [hds]
      rfl
    have hd1 : (digitsOf coeff).drop 1 = cs0 := by
      rw [hds]
      rfl
    have hlenL : (digitsOf coeff).length = cs0.length + 1 := by
      rw [hds]
      rfl
    by_cases hN : 1 < (digitsOf coeff).length
    · rw [if_pos hN]
      by_cases hadj : 0 ≤ exp + ((digitsOf coeff).length : Int) - 1
      · rw [if_pos hadj]
        have hbody : (digitsOf coeff).take 1 ++ (('.' :: (digitsOf coeff).drop 1) ++
            'E' :: '+' :: digitsOf (exp + ((digitsOf coeff).length : Int) - 1).natAbs) =
            c0 :: ('.' :: (cs0 ++
              'E' :: '+' :: digitsOf (exp + ((digitsOf coeff).length : Int) - 1).natAbs)) := by
          rw [ht1, hd1]
          rfl
        rw [hsign _ c0 _ hbody hc0, hbody,
          show (c0 :: ('.' :: (cs0 ++
              'E' :: '+' :: digitsOf (exp + ((digitsOf coeff).length : Int) - 1).natAbs)) :
            List Char) =
            [c0] ++ '.' :: (cs0 ++
              'E' :: '+' :: digitsOf (exp + ((digitsOf coeff).length : Int) - 1).natAbs)
            from rfl,
          decParseBody_sci_frac sign [c0] cs0 _ '+'
            (by
              intro c hc
              simp at hc
              subst hc
              exact hc0)
            (by simp) hcs0 heds hedne (Or.inl rfl)]
        have hval : natValue ([c0] ++ cs0) = coeff := by
          rw [List.singleton_append, ← hds]
          exact hnv
        rw [hval]
        simp only [Option.some.injEq, Dec.mk.injEq, if_neg (by decide : ¬('+' : Char) = '-'),
          hednv]
        refine ⟨trivial, trivial, ?_⟩
        omega
      · rw [if_neg hadj]
        have hbody : (digitsOf coeff).take 1 ++ (('.' :: (digitsOf coeff).drop 1) ++
            'E' :: '-' :: digitsOf (exp + ((digitsOf coeff).length : Int) - 1).natAbs) =
            c0 :: ('.' :: (cs0 ++
              'E' :: '-' :: digitsOf (exp + ((digitsOf coeff).length : Int) - 1).natAbs)) := by
          rw [ht1, hd1]
          rfl
        rw [hsign _ c0 _ hbody hc0, hbody,
          show (c0 :: ('.' :: (cs0 ++
              'E' :: '-' :: digitsOf (exp + ((digitsOf coeff).length : Int) - 1).natAbs)) :
            List Char) =
            [c0] ++ '.' :: (cs0 ++
              'E' :: '-' :: digitsOf (exp + ((digitsOf coeff).length : Int) - 1).natAbs)
            from rfl,
          decParseBody_sci_frac sign [c0] cs0 _ '-'
            (by
              intro c hc
              simp at hc
              subst hc
              exact hc0)
            (by simp) hcs0 heds hedne (Or.inr rfl)]
        have hval : natValue ([c0] ++ cs0) = coeff := by
          rw [List.singleton_append, ← hds]
          exact hnv
        rw [hval]
        simp only [Option.some.injEq, Dec.mk.injEq, eq_self_iff_true, if_true, hednv]
        refine ⟨trivial, trivial, ?_⟩
        omega
    · rw [if_neg hN]
      have hcs0nil : cs0 = [] := by
        rw [hlenL] at hN
        simpa [List.length_eq_zero] using (by omega : cs0.length = 0)
      by_cases hadj : 0 ≤ exp + ((digitsOf coeff).length : Int) - 1
      · rw [if_pos hadj]
        have hbody : (digitsOf coeff).take 1 ++ (([] : List Char) ++
            'E' :: '+' :: digitsOf (exp + ((digitsOf coeff).length : Int) - 1).natAbs) =
            c0 :: ('E' :: '+' :: digitsOf (exp + ((digitsOf coeff).length : Int) - 1).natAbs) := by
          rw [ht1]
          rfl
        rw [hsign _ c0 _ hbody hc0, hbody,
          show (c0 :: ('E' :: '+' ::
              digitsOf (exp + ((digitsOf coeff).length : Int) - 1).natAbs) : List Char) =
            [c0] ++ 'E' :: '+' :: digitsOf (exp + ((digitsOf coeff).length : Int) - 1).natAbs
            from rfl,
          decParseBody_sci_nofrac sign [c0] _ '+'
            (by
              intro c hc
              simp at hc
              subst hc
              exact hc0)
            (by simp) heds hedne (Or.inl rfl)]
        have hval : natValue [c0] = coeff := by
          rw [show ([c0] : List Char) = c0 :: cs0 from by rw [hcs0nil], ← hds]
          exact hnv
        rw [hval]
        simp only [Option.some.injEq, Dec.mk.injEq, if_neg (by decide : ¬('+' : Char) = '-'),
          hednv]
        refine ⟨trivial, trivial, ?_⟩
        rw [hcs0nil] at hlenL
        omega
      · rw [if_neg hadj]
        have hbody : (digitsOf coeff).take 1 ++ (([] : List Char) ++
            'E' :: '-' :: digitsOf (exp + ((digitsOf coeff).length : Int) - 1).natAbs) =
            c0 :: ('E' :: '-' :: digitsOf (exp + ((digitsOf coeff).length : Int) - 1).natAbs) := by
          rw [ht1]
          rfl
        rw [hsign _ c0 _ hbody hc0, hbody,
          show (c0 :: ('E' :: '-' ::
              digitsOf (exp + ((digitsOf coeff).length : Int) - 1).natAbs) : List Char) =
            [c0] ++ 'E' :: '-' :: digitsOf (exp + ((digitsOf coeff).length : Int) - 1).natAbs
            from rfl,
          decParseBody_sci_nofrac sign [c0] _ '-'
            (by
              intro c hc
              simp at hc
              subst hc
              exact hc0)
            (by simp) heds hedne (Or.inr rfl)]
        have hval : natValue [c0] = coeff := by
          rw [show ([c0] : List Char) = c0 :: cs0 from by rw [hcs0nil], ← hds]
          exact hnv
        rw [hval]
        simp only [Option.some.injEq, Dec.mk.injEq, eq_self_iff_true, if_true, hednv]
        refine ⟨trivial, trivial, ?_⟩
        rw [hcs0nil] at hlenL
        omega

/-! ## Claim theorem C7 -/

lemma padNum_ne_nil (w n : Nat) : padNum w n ≠ [] := by
  unfold padNum
  intro h
  rcases List.append_eq_nil.mp h with ⟨_, h2⟩
  exact digitsOf_ne_nil n h2

lemma dtToIso_ne_empty (t : DT) : dtToIso t ≠ "" := by
  unfold dtToIso dtChars
  intro h
  have hdata := congrArg String.data h
  rcases List.append_eq_nil.mp hdata with ⟨h1, _⟩
  exact padNum_ne_nil 4 t.year h1

lemma uuidString_ne_empty (a b c d e : Nat) : uuidString a b c d e ≠ "" := by
  unfold uuidString
  intro h
  have hdata := congrArg String.data h
  rcases List.append_eq_nil.mp hdata with ⟨_, h2⟩
  cases h2

/-- C7: serialization round-trips exactly: `from_dict (to_dict t)`
reconstructs every field of a transaction, the monetary amount in
particular coming back as the identical exact decimal; and a transaction
constructed without an identifier receives a generated (UUID4) non-empty
identifier from `__post_init__`. -/
theorem transaction_roundtrip (now : DT) (t : Transaction)
    (_hvalid : t.is_valid = true) (hd : DTValid t.date) (hc : DTValid t.created_at) :
    Transaction.from_dict now t.to_dict = some t ∧
    (∀ (amount : Dec) (description category : String) (ty : TransactionType)
      (date created_at : Option DT) (u : Nat × Nat × Nat × Nat × Nat),
      (Transaction.postInit amount description category ty date none created_at
        now u).id ≠ "") := by
  have hamount : decOfString? (decToString t.amount) = some t.amount := by
    unfold decOfString? decToString
    exact decParse_decChars t.amount
  have httype : TransactionType.ofString? t.transaction_type.value =
      some t.transaction_type := by
    cases t.transaction_type <;> rfl
  have hdate : dtFromIso? (dtToIso t.date) = some t.date := by
    unfold dtFromIso? dtToIso
    exact dtParse_dtChars hd
  have hcreated : dtFromIso? (dtToIso t.created_at) = some t.created_at := by
    unfold dtFromIso? dtToIso
    exact dtParse_dtChars hc
  constructor
  · simp [Transaction.from_dict, Transaction.to_dict, hamount, httype, hdate, hcreated,
      dtToIso_ne_empty]
  · intro amount description category ty date created_at u
    simpa [Transaction.postInit] using
      uuidString_ne_empty u.1 u.2.1 u.2.2.1 u.2.2.2.1 u.2.2.2.2

/-- C7 witness: the scenario transaction — amount `100.50`, description
`"Coffee"`, category `"Food"`, type `EXPENSE` — comes back field by field
with the amount exactly `100.50`, and a freshly generated identifier is
non-empty. -/
theorem transaction_roundtrip_witness :
    Transaction.from_dict ⟨2024, 1, 2, 3, 4, 5, 0⟩
      (Transaction.to_dict
        ⟨⟨false, 10050, -2⟩, "Coffee", "Food", .EXPENSE, ⟨2024, 1, 2, 3, 4, 5, 6⟩, "t1",
          ⟨2024, 1, 2, 3, 4, 5, 0⟩⟩) =
      some ⟨⟨false, 10050, -2⟩, "Coffee", "Food", .EXPENSE, ⟨2024, 1, 2, 3, 4, 5, 6⟩, "t1",
        ⟨2024, 1, 2, 3, 4, 5, 0⟩⟩ ∧
    (Transaction.postInit ⟨false, 10050, -2⟩ "Coffee" "Food" .EXPENSE none none none
      ⟨2024, 1, 2, 3, 4, 5, 0⟩ (1, 2, 3, 4, 5)).id ≠ "" :=
  ⟨(transaction_roundtrip ⟨2024, 1, 2, 3, 4, 5, 0⟩
      ⟨⟨false, 10050, -2⟩, "Coffee", "Food", .EXPENSE, ⟨2024, 1, 2, 3, 4, 5, 6⟩, "t1",
        ⟨2024, 1, 2, 3, 4, 5, 0⟩⟩ (by decide) (by simp [DTValid]) (by simp [DTValid])).1,
   (transaction_roundtrip ⟨2024, 1, 2, 3, 4, 5, 0⟩
      ⟨⟨false, 10050, -2⟩, "Coffee", "Food", .EXPENSE, ⟨2024, 1, 2, 3, 4, 5, 6⟩, "t1",
        ⟨2024, 1, 2, 3, 4, 5, 0⟩⟩ (by decide) (by simp [DTValid]) (by simp [DTValid])).2
     ⟨false, 10050, -2⟩ "Coffee" "Food" .EXPENSE none none (1, 2, 3, 4, 5)⟩

end ExpenseTracker
